import Mathlib

/-!
# enoki/python.h: the pybind11 type caster for nested static and dynamic arrays

A shallow embedding of `type_caster<Type>` (`load`, `cast`, `write_buffer`,
`read_buffer`, the stride loop, `name`), of `array_shape_descr` and of the helpers of
`array.h` they call (`enoki::shape`, `enoki::ragged`, `enoki::resize`), followed by
theorems about them.

Conventions of the embedding:
* a nested array type is the list of its nesting levels, outermost first; the
  empty list is the non-array leaf type `BaseScalar`;
* pointers into a flat buffer are element indices (`buf += size` adds `size`);
* `size_t` products in the stride loop are taken modulo `2 ^ 64`;
* contents that C++ leaves indeterminate (a freshly allocated element, memory
  past the end of a buffer) are `default`; a call that stores or reads outside a
  buffer ends in `out_of_bounds`;
* `arith` stands for `std::is_arithmetic<BaseScalar>::value` and `sizeof` for
  `sizeof(BaseScalar)`.
-/

namespace Enoki

/-- One nesting level of an array type: `is_sarray` (length `T::Size` fixed by the
type) or `is_darray` (length held by the instance). -/
inductive Axis where
  | static (size : Nat)
  | dynamic
deriving DecidableEq, Repr

/-- Values of the nested array type with levels `ty` over the base scalar `α`:
a leaf is a scalar, an array level is the sequence of its `coeff(i)`. -/
def Value (α : Type) : List Axis → Type
  | [] => α
  | _ :: ty => List (Value α ty)

/-- The `coeff(i)` of an array value, as a list. -/
def Value.coeffs {α : Type} {a : Axis} {ty : List Axis} (v : Value α (a :: ty)) :
    List (Value α ty) := v

/-- An array value from its elements. -/
def Value.ofCoeffs {α : Type} {a : Axis} {ty : List Axis} (l : List (Value α ty)) :
    Value α (a :: ty) := l

/-- A list of elements seen as an array value. -/
abbrev arr {α : Type} (a : Axis) {ty : List Axis} (l : List (Value α ty)) : Value α (a :: ty) := l

/-- The constant `enoki::array_depth<Type>::value`: the number of nesting levels. -/
def array_depth (ty : List Axis) : Nat := ty.length

/-- A value respects its type: every static level of length `N` has exactly `N`
elements (what the C++ type guarantees for every instance of `Type`). -/
def conforms {α : Type} : (ty : List Axis) → Value α ty → Bool
  | [], _ => true
  | .static n :: ty, v => decide (v.coeffs.length = n) && v.coeffs.all (conforms ty)
  | .dynamic :: ty, v => v.coeffs.all (conforms ty)

/-- Modelled from the spec: `enoki::shape` (array.h). Axis 0 is the value's own
length; the deeper axes come from the first element only; with no first element
every deeper axis is reported as 0. -/
def shape {α : Type} : (ty : List Axis) → Value α ty → List Nat
  | [], _ => []
  | _ :: ty, v =>
    v.coeffs.length ::
      (match v.coeffs with
       | [] => List.replicate ty.length 0
       | c :: _ => shape ty c)

/-- Modelled from the spec: `enoki::ragged` (array.h). At each container level the
shape of the first child is recorded and the shape of every later sibling is
compared with it; a mismatch at any depth makes the whole value ragged; scalar
leaves are never ragged. -/
def ragged {α : Type} : (ty : List Axis) → Value α ty → Bool
  | [], _ => false
  | _ :: ty, v =>
    match v.coeffs with
    | [] => false
    | c :: cs =>
      cs.any (fun d => shape ty d != shape ty c) || (c :: cs).any (ragged ty)

/-- A default-initialised value: static levels have their fixed length, dynamic
levels are empty. -/
def blank {α : Type} [Inhabited α] : (ty : List Axis) → Value α ty
  | [] => (default : α)
  | .static n :: ty => Value.ofCoeffs (List.replicate n (blank ty))
  | .dynamic :: _ => Value.ofCoeffs []

/-- Set the length of a sequence to `k`, keeping the leading elements and padding
with `d`. -/
def set_length {β : Type} (k : Nat) (d : β) (l : List β) : List β :=
  l.take k ++ List.replicate (k - l.length) d

/-- Modelled from the spec: `enoki::resize` (array.h). A dynamic level takes the
length the shape gives for its axis; a static level keeps the length fixed by its
type; the elements are resized with the rest of the shape. -/
def resize {α : Type} [Inhabited α] : (ty : List Axis) → List Nat → Value α ty → Value α ty
  | [], _, v => v
  | .static n :: ty, shp, v =>
    Value.ofCoeffs ((set_length n (blank ty) v.coeffs).map (resize ty shp.tail))
  | .dynamic :: ty, shp, v =>
    Value.ofCoeffs ((set_length shp.headI (blank ty) v.coeffs).map (resize ty shp.tail))

/-- The loop `for (size_t i = 0; i < size; ++i) write_buffer(buf, value.coeff(i))`:
the cursor is threaded through the calls and the stores are performed in order. -/
def write_loop {α β : Type} (f : Nat → β → Nat × List (Nat × α)) :
    Nat → List β → Nat × List (Nat × α)
  | buf, [] => (buf, [])
  | buf, c :: cs =>
    let r := f buf c
    let r' := write_loop f r.1 cs
    (r'.1, r.2 ++ r'.2)

/-- The function `write_buffer(buf, value)` (lines 107 to 122): returns the advanced
cursor and the element stores made through it, as (flat index, scalar) pairs in the
order they happen. The first equation is the overload for a non-array `T`, whose body
is empty. `arith` is `std::is_arithmetic<BaseScalar>::value`; `T::Scalar` can be
arithmetic only when it is that base scalar, i.e. at the innermost array level, where
the `memcpy` stores the `size` elements at `buf, buf + 1, ...` and `buf += size`. -/
def write_buffer {α : Type} (arith : Bool) :
    (ty : List Axis) → Nat → Value α ty → Nat × List (Nat × α)
  | [], buf, _ => (buf, [])
  | [_], buf, v =>
    if arith then
      (buf + v.coeffs.length, List.enumFrom buf v.coeffs)
    else
      write_loop (write_buffer arith []) buf v.coeffs
  | _ :: a :: ty, buf, v => write_loop (write_buffer arith (a :: ty)) buf v.coeffs

/-- The loop `for (size_t i = 0; i < size; ++i) read_buffer(buf, value.coeff(i))`. -/
def read_loop {β : Type} (f : Nat → β → Nat × β) : Nat → List β → Nat × List β
  | buf, [] => (buf, [])
  | buf, c :: cs =>
    let r := f buf c
    let r' := read_loop f r.1 cs
    (r'.1, r.2 :: r'.2)

/-- The function `read_buffer(buf, value)` (lines 124 to 139) over the flat source
`data`: returns the advanced cursor and the value after the call. The first equation
is the overload for a non-array `T`, whose body is empty. At the innermost level of
an arithmetic base scalar the `memcpy` overwrites the `size` elements with
`data[buf], data[buf + 1], ...`; a read past the end of `data` yields `default`
here, and `load` reports it as `out_of_bounds`. -/
def read_buffer {α : Type} [Inhabited α] (arith : Bool) (data : List α) :
    (ty : List Axis) → Nat → Value α ty → Nat × Value α ty
  | [], buf, v => (buf, v)
  | [_], buf, v =>
    if arith then
      (buf + v.coeffs.length,
        Value.ofCoeffs ((List.range v.coeffs.length).map (fun i => data.getD (buf + i) default)))
    else
      let r := read_loop (read_buffer arith data []) buf v.coeffs
      (r.1, Value.ofCoeffs r.2)
  | _ :: a :: ty, buf, v =>
    let r := read_loop (read_buffer arith data (a :: ty)) buf v.coeffs
    (r.1, Value.ofCoeffs r.2)

/-- The C++ conversion `(int) n` of a `size_t` to a 32-bit signed integer. -/
def toInt32 (n : Nat) : Int :=
  if n % 2 ^ 32 < 2 ^ 31 then ((n % 2 ^ 32 : Nat) : Int) else ((n % 2 ^ 32 : Nat) : Int) - 2 ^ 32

/-- The body of the stride loop run for `i = n - 1, n - 2, ..., 0`:
`stride[i] = shape[i + 1] * stride[i + 1]` in `size_t` arithmetic. An index outside
the arrays gives `none`. -/
def stride_loop (shape : List Nat) : Nat → List Nat → Option (List Nat)
  | 0, stride => some stride
  | i + 1, stride =>
    match shape[i + 1]?, stride[i + 1]? with
    | some s, some t =>
      if i < stride.length then
        stride_loop shape i (stride.set i ((s * t) % 2 ^ 64))
      else none
    | _, _ => none

/-- The stride computation of `cast` (lines 77 to 81) for a scalar of `sizeof` bytes:
`stride[shape.size() - 1] = sizeof(BaseScalar)` with the index computed in `size_t`,
then the loop from `(int) shape.size() - 2` down to `0`. -/
def cast_stride (sizeof : Nat) (shape : List Nat) : Option (List Nat) :=
  let stride := List.replicate shape.length 0
  let last := (shape.length + (2 ^ 64 - 1)) % 2 ^ 64
  if last < stride.length then
    stride_loop shape (toInt32 shape.length - 2 + 1).toNat (stride.set last sizeof)
  else none

/-- A numpy array as the caster sees it: per-axis extents, per-axis byte strides
and the flat row-major contents. -/
structure NdArray (α : Type) where
  shape : List Nat
  strides : List Nat
  data : List α
deriving DecidableEq, Repr

/-- The dimensionality `arr.ndim()`. -/
def NdArray.ndim {α : Type} (arr : NdArray α) : Nat := arr.shape.length

/-- How `cast` can end without returning an array. -/
inductive CastError where
  | type_error (msg : String)
  | out_of_bounds
deriving DecidableEq, Repr

/-- What one call of `cast` did: the buffer it constructed (its shape and strides),
the element stores it made into that buffer, and how it ended. -/
structure CastRun (α : Type) where
  allocated : Option (List Nat × List Nat)
  stores : List (Nat × α)
  result : Except CastError (NdArray α)

/-- Perform element stores on a flat memory, in order. -/
def apply_stores {α : Type} (mem : List α) (stores : List (Nat × α)) : List α :=
  stores.foldl (fun m s => m.set s.1 s.2) mem

/-- The function `type_caster::cast(const Type &src, ...)` (lines 72 to 92) for a base
scalar of `sizeof` bytes. It throws on a ragged value before anything else happens; otherwise it takes the
shape, computes the strides, constructs the array (its `shape.prod` elements start
indeterminate) and runs `write_buffer` from the start of its data. An index outside
`shape` or `stride`, or a store outside the array, is undefined behaviour in C++ and is
reported as `out_of_bounds`. -/
def cast {α : Type} [Inhabited α] (arith : Bool) (sizeof : Nat) (ty : List Axis)
    (src : Value α ty) : CastRun α :=
  if ragged ty src then
    ⟨none, [], .error (.type_error "Ragged arrays are not supported!")⟩
  else
    let shp := shape ty src
    match cast_stride sizeof shp with
    | none => ⟨none, [], .error .out_of_bounds⟩
    | some stride =>
      let mem := List.replicate shp.prod (default : α)
      let w := write_buffer arith ty 0 src
      if w.2.all (fun s => decide (s.1 < mem.length)) then
        ⟨some (shp, stride), w.2, .ok ⟨shp, stride, apply_stores mem w.2⟩⟩
      else
        ⟨some (shp, stride), w.2, .error .out_of_bounds⟩

/-- How a call of `load` ends: it returns its flag and leaves the member `value` in
some state, it is left by a C++ exception, or it runs into undefined behaviour by
reading outside the foreign buffer. -/
inductive LoadRun (β : Type) where
  | returned (flag : Bool) (value : β)
  | raised (what : String)
  | out_of_bounds

/-- The function `type_caster::load(handle src, bool)` (lines 49 to 66). `ensure` is
pybind11's `array_t<BaseScalar, array::c_style | array::forcecast>::ensure`, which
yields no array when the object cannot be interpreted. The two early returns leave
`value` alone. Otherwise `value` is resized and `read_buffer` runs from the start of
the buffer's data; it reads the elements at the positions below its final cursor, so
when that cursor lies past the end of the data a `memcpy` has read outside the
buffer, which is undefined behaviour in C++ and is reported as `out_of_bounds` (as in
`cast`). The body has no `throw`, so no equation gives `raised`. -/
def load {α H : Type} [Inhabited α] (arith : Bool) (ty : List Axis)
    (ensure : H → Option (NdArray α)) (src : H) (value : Value α ty) :
    LoadRun (Value α ty) :=
  match ensure src with
  | none => .returned false value
  | some arr =>
    if array_depth ty ≠ arr.ndim then .returned false value
    else
      let shp := arr.shape.take (array_depth ty)
      let value := resize ty shp value
      let r := read_buffer arith arr.data ty 0 value
      if r.1 ≤ arr.data.length then .returned true r.2 else .out_of_bounds

/-- The scalars of a value in row-major traversal order. -/
def flatten {α : Type} : (ty : List Axis) → Value α ty → List α
  | [], x => [x]
  | _ :: ty, v => v.coeffs.flatMap (flatten ty)

/-- The scalar at a multi-index, `value.coeff(i0).coeff(i1)...`, when every index
is in range. -/
def coeff_at {α : Type} : (ty : List Axis) → Value α ty → List Nat → Option α
  | [], x, [] => some x
  | [], _, _ :: _ => none
  | _ :: _, _, [] => none
  | _ :: ty, v, i :: idx =>
    match v.coeffs[i]? with
    | none => none
    | some c => coeff_at ty c idx

/-- Row-major position `((i0 * s1 + i1) * s2 + ...) * sk + ik` of a multi-index. -/
def row_major (shape idx : List Nat) : Nat :=
  (List.zip shape idx).foldl (fun acc p => acc * p.1 + p.2) 0

/-- Byte offset `i0 * stride[0] + ... + ik * stride[k]` of a multi-index. -/
def byte_offset (stride idx : List Nat) : Nat :=
  (List.zipWith (fun i t => i * t) idx stride).sum

/-- Every index of a multi-index is below the extent of its axis. -/
def in_range (shape idx : List Nat) : Prop :=
  List.Forall₂ (fun i s => i < s) idx shape

/-- The value is rectangular with extents `shp`: every array at nesting level `j`
has exactly `shp[j]` elements. -/
def has_shape {α : Type} : (ty : List Axis) → List Nat → Value α ty → Bool
  | [], [], _ => true
  | [], _ :: _, _ => false
  | _ :: _, [], _ => false
  | _ :: ty, s :: shp, v => decide (v.coeffs.length = s) && v.coeffs.all (has_shape ty shp)

/-- The extents `shp` can be given to a value of type `ty`: on every static level
that is not nested under a zero-length axis the extent is the fixed length. -/
def fits : (ty : List Axis) → List Nat → Bool
  | [], [] => true
  | [], _ :: _ => false
  | _ :: _, [] => false
  | .static n :: ty, s :: shp => decide (s = n) && (decide (s = 0) || fits ty shp)
  | .dynamic :: ty, s :: shp => decide (s = 0) || fits ty shp

/-- The text pybind11's `_<N>()` gives for a size: its decimal numeral. -/
def descr_size (n : Nat) : String := toString n

/-- The function `array_shape_descr<T>::name_cont()` (lines 24, 31 to 33, 40 to 42): the
descriptor of the levels that follow an outer one, each entry led by a separator. -/
def name_cont : List Axis → String
  | [] => ""
  | .static n :: ty => ", " ++ descr_size n ++ name_cont ty
  | .dynamic :: ty => ", n" ++ name_cont ty

/-- The function `array_shape_descr<T>::name()` (lines 23, 28 to 30, 37 to 39). -/
def array_shape_descr (ty : List Axis) : String :=
  match ty with
  | [] => ""
  | .static n :: ty => descr_size n ++ name_cont ty
  | .dynamic :: ty => "n" ++ name_cont ty

/-- The function `type_caster::name()` (lines 96 to 101). `type_descr` is pybind11's
`pybind11::detail::type_descr` and `scalar_name` the text of
`npy_format_descriptor<BaseScalar>::name()`. -/
def name (type_descr : String → String) (scalar_name : String) (ty : List Axis) : String :=
  type_descr
    ("numpy.ndarray[dtype=" ++ scalar_name ++ ", shape=(" ++ array_shape_descr ty ++ ")]")

/-- How one axis is rendered: a static axis as the decimal numeral of its length, a
dynamic axis as the letter n. -/
def axis_entry : Axis → String
  | .static n => toString n
  | .dynamic => "n"

/-- The shape part as the specification words it: one entry per axis, outermost
first, joined by a comma and a blank. -/
def shape_part (ty : List Axis) : String :=
  String.intercalate ", " (ty.map axis_entry)

/-- The number of scalar leaves of a value: the sum of the lengths of its innermost
arrays. -/
def leaf_count {α : Type} : (ty : List Axis) → Value α ty → Nat
  | [], _ => 1
  | [_], v => v.coeffs.length
  | _ :: a :: ty, v => (v.coeffs.map (leaf_count (a :: ty))).sum

/-- The indices the stride computation of `cast` (lines 79 to 81) uses on `shape` and
`stride` for `D` axes, in order: `shape.size() - 1` for the first assignment, then
`i + 1` (read) and `i` (written) for each `i` from `(int) shape.size() - 2` down
to 0. -/
def stride_indices (D : Nat) : List Nat :=
  ((D + (2 ^ 64 - 1)) % 2 ^ 64) ::
    (List.range (toInt32 D - 2 + 1).toNat).reverse.flatMap (fun i => [i + 1, i])

/-! ## Values used as test inputs -/

/-- A depth-2 dynamic value whose sub-arrays have lengths 2, 3 and 3. -/
def ragged_233 : Value Int [Axis.dynamic, Axis.dynamic] :=
  ([[1, 2], [3, 4, 5], [6, 7, 8]] : List (List Int))

/-- A depth-2 dynamic value whose sub-arrays have lengths 3, 3 and 2. -/
def ragged_332 : Value Int [Axis.dynamic, Axis.dynamic] :=
  ([[1, 2, 3], [4, 5, 6], [7, 8]] : List (List Int))

/-- The empty depth-2 dynamic value. -/
def empty_2d : Value Int [Axis.dynamic, Axis.dynamic] := ([] : List (List Int))

/-- A depth-2 value of two rows of three integers; the inner level is static. -/
def rows_2x3 : Value Int [Axis.dynamic, Axis.static 3] :=
  ([[1, 2, 3], [4, 5, 6]] : List (List Int))

/-- A depth-1 value of two scalars of a composite (non-arithmetic) type. -/
def pairs_2 : Value (Int × Int) [Axis.static 2] := ([(5, 1), (6, 2)] : List (Int × Int))

/-- Another depth-1 value of two scalars of that composite type. -/
def pairs_2_other : Value (Int × Int) [Axis.static 2] := ([(7, 3), (8, 4)] : List (Int × Int))

/-- The empty value of the type of `rows_2x3`. -/
def empty_rows : Value Int [Axis.dynamic, Axis.static 3] := ([] : List (List Int))

/-- A depth-1 static value of three integers. -/
def triple_0 : Value Int [Axis.static 3] := ([0, 0, 0] : List Int)

/-- The `n` elements an in-order copy reads from `data` starting at position `c`. -/
def segment {α : Type} [Inhabited α] (data : List α) (c n : Nat) : List α :=
  (List.range n).map (fun i => data.getD (c + i) default)

/-- Row-major byte strides in exact arithmetic: the stride of an axis is the scalar
size times the extents of all deeper axes. -/
def exact_strides (sizeof : Nat) : List Nat → List Nat
  | [] => []
  | _ :: shp => sizeof * shp.prod :: exact_strides sizeof shp

/-! ## Unfolding lemmas -/

section Unfold
variable {α : Type}

@[simp] theorem coeffs_arr {a : Axis} {ty : List Axis} (l : List (Value α ty)) :
    (arr a l).coeffs = l := rfl

@[simp] theorem ofCoeffs_eq {a : Axis} {ty : List Axis} (l : List (Value α ty)) :
    (Value.ofCoeffs l : Value α (a :: ty)) = arr a l := rfl

@[simp] theorem coeffs_eq {a : Axis} {ty : List Axis} (v : Value α (a :: ty)) :
    v.coeffs = (v : List (Value α ty)) := rfl

@[simp] theorem flatten_nil (x : Value α []) : flatten [] x = [x] := rfl

@[simp] theorem flatten_cons (a : Axis) (ty : List Axis) (l : List (Value α ty)) :
    flatten (a :: ty) (arr a l) = l.flatMap (flatten ty) := rfl

theorem flatMap_flatten_nil (l : List (Value α [])) : l.flatMap (flatten []) = l := by
  induction l with
  | nil => rfl
  | cons x xs ih => simp [List.flatMap_cons, ih]

@[simp] theorem shape_nil (x : Value α []) : shape [] x = [] := rfl

@[simp] theorem shape_cons_nil (a : Axis) (ty : List Axis) :
    shape (a :: ty) (arr a ([] : List (Value α ty))) = 0 :: List.replicate ty.length 0 :=
  rfl

@[simp] theorem shape_cons_cons (a : Axis) (ty : List Axis) (c : Value α ty)
    (cs : List (Value α ty)) :
    shape (a :: ty) (arr a (c :: cs)) = (cs.length + 1) :: shape ty c := rfl

theorem shape_length : ∀ (ty : List Axis) (v : Value α ty), (shape ty v).length = ty.length
  | [], _ => rfl
  | a :: ty, v => by
    show (shape (a :: ty) (arr a v)).length = _
    cases v with
    | nil => simp
    | cons c cs => simp [shape_length ty c]

@[simp] theorem ragged_nil (x : Value α []) : ragged [] x = false := rfl

@[simp] theorem ragged_cons_nil (a : Axis) (ty : List Axis) :
    ragged (a :: ty) (arr a ([] : List (Value α ty))) = false := rfl

@[simp] theorem ragged_cons_cons (a : Axis) (ty : List Axis) (c : Value α ty)
    (cs : List (Value α ty)) :
    ragged (a :: ty) (arr a (c :: cs)) =
      (cs.any (fun d => shape ty d != shape ty c) || (c :: cs).any (ragged ty)) := rfl

@[simp] theorem has_shape_cons (a : Axis) (ty : List Axis) (s : Nat) (shp : List Nat)
    (l : List (Value α ty)) :
    has_shape (a :: ty) (s :: shp) (arr a l) =
      (decide (l.length = s) && l.all (has_shape ty shp)) := rfl

end Unfold

/-! ## Rectangular values -/

section Rect
variable {α : Type}

theorem has_shape_of_not_ragged :
    ∀ (ty : List Axis) (v : Value α ty), ragged ty v = false → has_shape ty (shape ty v) v = true
  | [], _, _ => rfl
  | a :: ty, v, h => by
    revert h
    show ragged (a :: ty) (arr a v) = false → has_shape (a :: ty) (shape (a :: ty) (arr a v)) (arr a v) = true
    cases v with
    | nil => intro _; rfl
    | cons c cs =>
      intro h
      simp only [ragged_cons_cons, Bool.or_eq_false_iff, List.any_eq_false, bne_iff_ne, ne_eq,
        Decidable.not_not, List.mem_cons, Bool.not_eq_true] at h
      obtain ⟨h1, h2⟩ := h
      simp only [shape_cons_cons, has_shape_cons, List.length_cons, decide_True, Bool.true_and,
        List.all_eq_true, List.mem_cons]
      intro d hd
      rcases hd with rfl | hd
      · exact has_shape_of_not_ragged ty d (h2 d (Or.inl rfl))
      · have := has_shape_of_not_ragged ty d (h2 d (Or.inr hd))
        rw [h1 d hd] at this
        exact this

theorem length_flatMap_const {β γ : Type} (f : β → List γ) (k : Nat) :
    ∀ l : List β, (∀ x ∈ l, (f x).length = k) → (l.flatMap f).length = l.length * k
  | [], _ => by simp
  | x :: xs, h => by
    have h1 := h x (List.mem_cons_self _ _)
    have h2 := length_flatMap_const f k xs (fun y hy => h y (List.mem_cons_of_mem _ hy))
    simp only [List.flatMap_cons, List.length_append, h1, h2, List.length_cons]
    ring

theorem length_flatten_of_has_shape :
    ∀ (ty : List Axis) (shp : List Nat) (v : Value α ty),
      has_shape ty shp v = true → (flatten ty v).length = shp.prod
  | [], [], _, _ => rfl
  | [], _ :: _, _, h => by simp [has_shape] at h
  | _ :: _, [], _, h => by simp [has_shape] at h
  | a :: ty, s :: shp, v, h => by
    revert h
    show has_shape (a :: ty) (s :: shp) (arr a v) = true → (flatten (a :: ty) (arr a v)).length = _
    intro h
    simp only [has_shape_cons, Bool.and_eq_true, decide_eq_true_eq, List.all_eq_true] at h
    rw [flatten_cons, length_flatMap_const (flatten ty) shp.prod v
      (fun x hx => length_flatten_of_has_shape ty shp x (h.2 x hx)), h.1, List.prod_cons]

end Rect

/-! ## The writer -/

section Writer
variable {α : Type}

theorem write_loop_spec {β : Type} (f : Nat → β → Nat × List (Nat × α)) (g : β → List α)
    (hf : ∀ c x, f c x = (c + (g x).length, List.enumFrom c (g x))) :
    ∀ (l : List β) (c : Nat),
      write_loop f c l = (c + (l.flatMap g).length, List.enumFrom c (l.flatMap g))
  | [], c => by simp [write_loop]
  | x :: xs, c => by
    simp only [write_loop, hf, write_loop_spec f g hf xs, List.flatMap_cons, List.length_append,
      List.enumFrom_append, Nat.add_assoc]

theorem write_loop_noop {β : Type} (f : Nat → β → Nat × List (Nat × α))
    (hf : ∀ c x, f c x = (c, [])) :
    ∀ (l : List β) (c : Nat), write_loop f c l = (c, [])
  | [], c => by simp [write_loop]
  | x :: xs, c => by simp [write_loop, hf, write_loop_noop f hf xs]

theorem write_buffer_arith :
    ∀ (a : Axis) (ty : List Axis) (c : Nat) (v : Value α (a :: ty)),
      write_buffer true (a :: ty) c v =
        (c + (flatten (a :: ty) v).length, List.enumFrom c (flatten (a :: ty) v))
  | a, [], c, v => by
    show write_buffer true [a] c (arr a v) = _
    simp [write_buffer, flatMap_flatten_nil]
  | a, b :: ty, c, v => by
    show write_loop (write_buffer true (b :: ty)) c v = _
    exact write_loop_spec _ (flatten (b :: ty)) (fun c x => write_buffer_arith b ty c x) v c

theorem write_buffer_not_arith :
    ∀ (ty : List Axis) (c : Nat) (v : Value α ty), write_buffer false ty c v = (c, [])
  | [], _, _ => rfl
  | [_], c, v => by
    show write_loop (write_buffer false []) c v = _
    exact write_loop_noop _ (fun _ _ => rfl) v c
  | _ :: b :: ty, c, v => by
    show write_loop (write_buffer false (b :: ty)) c v = _
    exact write_loop_noop _ (fun c x => write_buffer_not_arith (b :: ty) c x) v c

theorem length_apply_stores (stores : List (Nat × α)) :
    ∀ mem : List α, (apply_stores mem stores).length = mem.length := by
  induction stores with
  | nil => intro mem; rfl
  | cons s ss ih =>
    intro mem
    show (apply_stores (mem.set s.1 s.2) ss).length = _
    rw [ih, List.length_set]

theorem getElem?_apply_stores_enumFrom :
    ∀ (l : List α) (k : Nat) (mem : List α) (i : Nat), k + l.length ≤ mem.length →
      (apply_stores mem (List.enumFrom k l))[i]? =
        if k ≤ i ∧ i < k + l.length then l[i - k]? else mem[i]?
  | [], k, mem, i, _ => by
    have : ¬ (k ≤ i ∧ i < k + ([] : List α).length) := by simp only [List.length_nil]; omega
    rw [if_neg this]
    rfl
  | x :: xs, k, mem, i, h => by
    show (apply_stores (mem.set k x) (List.enumFrom (k + 1) xs))[i]? = _
    have h' : k + 1 + xs.length ≤ (mem.set k x).length := by
      simp only [List.length_set, List.length_cons] at h ⊢; omega
    rw [getElem?_apply_stores_enumFrom xs (k + 1) (mem.set k x) i h']
    simp only [List.length_cons] at h ⊢
    by_cases h1 : k + 1 ≤ i
    · by_cases h2 : i < k + 1 + xs.length
      · have e : i - k = (i - (k + 1)) + 1 := by omega
        rw [if_pos ⟨h1, h2⟩, if_pos ⟨by omega, by omega⟩, e, List.getElem?_cons_succ]
      · rw [if_neg (by omega), if_neg (by omega), List.getElem?_set_ne (by omega)]
    · rw [if_neg (by omega)]
      by_cases h3 : i = k
      · subst h3
        rw [if_pos ⟨le_refl _, by omega⟩, List.getElem?_set_self (by omega), Nat.sub_self]
        simp
      · rw [if_neg (by omega), List.getElem?_set_ne (by omega)]

theorem apply_stores_enumFrom (l : List α) (d : α) :
    apply_stores (List.replicate l.length d) (List.enumFrom 0 l) = l := by
  apply List.ext_getElem?
  intro i
  rw [getElem?_apply_stores_enumFrom l 0 _ i (by simp)]
  by_cases h : i < l.length
  · simp [h]
  · simp only [Nat.zero_le, Nat.zero_add, h, and_false, if_false]
    rw [List.getElem?_eq_none (Nat.le_of_not_lt h), List.getElem?_eq_none (by simp; omega)]

end Writer

/-! ## The reader -/

section Reader
variable {α : Type} [Inhabited α]

theorem segment_add (data : List α) (c n m : Nat) :
    segment data c (n + m) = segment data c n ++ segment data (c + n) m := by
  simp only [segment, List.range_add, List.map_append, List.map_map]
  congr 1
  apply List.map_congr_left
  intro i _
  simp [Nat.add_assoc]

theorem length_segment (data : List α) (c n : Nat) : (segment data c n).length = n := by
  simp [segment]

theorem segment_zero_length (l : List α) : segment l 0 l.length = l := by
  apply List.ext_getElem?
  intro i
  by_cases h : i < l.length
  · simp [segment, h, List.getElem?_eq_getElem]
  · rw [List.getElem?_eq_none (by simp [segment]; omega), List.getElem?_eq_none (by omega)]

theorem segment_append_left (l r : List α) : segment (l ++ r) 0 l.length = l := by
  apply List.ext_getElem?
  intro i
  by_cases h : i < l.length
  · simp [segment, h, List.getElem?_eq_getElem, List.getElem?_append_left]
  · rw [List.getElem?_eq_none (by simp [segment]; omega), List.getElem?_eq_none (by omega)]

theorem read_loop_spec {β : Type} (data : List α) (f : Nat → β → Nat × β) (g : β → List α)
    (hf1 : ∀ c x, (f c x).1 = c + (g x).length)
    (hf2 : ∀ c x, g (f c x).2 = segment data c (g x).length) :
    ∀ (l : List β) (c : Nat),
      (read_loop f c l).1 = c + (l.flatMap g).length ∧
      (read_loop f c l).2.flatMap g = segment data c (l.flatMap g).length
  | [], c => by simp [read_loop, segment]
  | x :: xs, c => by
    obtain ⟨h1, h2⟩ := read_loop_spec data f g hf1 hf2 xs (f c x).1
    rw [hf1] at h1 h2
    simp only [read_loop, List.flatMap_cons, List.length_append, segment_add, h1, h2, hf1, hf2,
      Nat.add_assoc, and_self]

theorem read_loop_length {β : Type} (f : Nat → β → Nat × β) :
    ∀ (l : List β) (c : Nat), (read_loop f c l).2.length = l.length
  | [], _ => rfl
  | x :: xs, c => by simp [read_loop, read_loop_length f xs]

theorem read_loop_all {β : Type} (f : Nat → β → Nat × β) (p : β → Bool)
    (hf : ∀ c x, p x = true → p (f c x).2 = true) :
    ∀ (l : List β) (c : Nat), l.all p = true → (read_loop f c l).2.all p = true
  | [], _, _ => rfl
  | x :: xs, c, h => by
    simp only [List.all_cons, Bool.and_eq_true] at h
    simp only [read_loop, List.all_cons, Bool.and_eq_true]
    exact ⟨hf c x h.1, read_loop_all f p hf xs _ h.2⟩

theorem read_loop_noop {β : Type} (f : Nat → β → Nat × β) (hf : ∀ c x, f c x = (c, x)) :
    ∀ (l : List β) (c : Nat), read_loop f c l = (c, l)
  | [], _ => rfl
  | x :: xs, c => by simp [read_loop, hf, read_loop_noop f hf xs]

theorem read_buffer_arith (data : List α) :
    ∀ (a : Axis) (ty : List Axis) (c : Nat) (v : Value α (a :: ty)),
      (read_buffer true data (a :: ty) c v).1 = c + (flatten (a :: ty) v).length ∧
      flatten (a :: ty) (read_buffer true data (a :: ty) c v).2 =
        segment data c (flatten (a :: ty) v).length
  | a, [], c, v => by
    show (read_buffer true data [a] c (arr a v)).1 = c + (flatten [a] (arr a v)).length ∧
      flatten [a] (read_buffer true data [a] c (arr a v)).2
        = segment data c (flatten [a] (arr a v)).length
    simp [read_buffer, flatMap_flatten_nil, segment]
  | a, b :: ty, c, v => by
    show (read_loop (read_buffer true data (b :: ty)) c v).1 = _ ∧
      (read_loop (read_buffer true data (b :: ty)) c v).2.flatMap (flatten (b :: ty)) = _
    exact read_loop_spec data _ (flatten (b :: ty))
      (fun c x => (read_buffer_arith data b ty c x).1)
      (fun c x => (read_buffer_arith data b ty c x).2) v c

theorem read_buffer_not_arith (data : List α) :
    ∀ (ty : List Axis) (c : Nat) (v : Value α ty), read_buffer false data ty c v = (c, v)
  | [], _, _ => rfl
  | [_], c, v => by
    show ((read_loop (read_buffer false data []) c v).1,
      (read_loop (read_buffer false data []) c v).2) = _
    rw [read_loop_noop (read_buffer false data []) (fun _ _ => rfl) v c]
  | _ :: b :: ty, c, v => by
    show ((read_loop (read_buffer false data (b :: ty)) c v).1,
      (read_loop (read_buffer false data (b :: ty)) c v).2) = _
    rw [read_loop_noop _ (fun c x => read_buffer_not_arith data (b :: ty) c x) v c]

theorem read_buffer_has_shape (arith : Bool) (data : List α) :
    ∀ (ty : List Axis) (shp : List Nat) (c : Nat) (v : Value α ty),
      has_shape ty shp v = true → has_shape ty shp (read_buffer arith data ty c v).2 = true
  | [], _, _, _, h => h
  | [_], [], _, _, h => by simp [has_shape] at h
  | _ :: _ :: _, [], _, _, h => by simp [has_shape] at h
  | [a], s :: shp, c, v, h => by
    cases arith with
    | false => rw [read_buffer_not_arith]; exact h
    | true =>
      revert h
      show has_shape [a] (s :: shp) (arr a v) = true →
        has_shape [a] (s :: shp) (read_buffer true data [a] c (arr a v)).2 = true
      intro h
      simp only [has_shape_cons, Bool.and_eq_true, decide_eq_true_eq, List.all_eq_true] at h
      cases shp with
      | nil => simp [read_buffer, has_shape, h.1]
      | cons t shp =>
        have hv : v = [] := by
          cases v with
          | nil => rfl
          | cons x xs => have := h.2 x (List.mem_cons_self _ _); simp [has_shape] at this
        subst hv
        simp only [List.length_nil] at h
        simp [read_buffer, has_shape, ← h.1]
  | a :: b :: ty, s :: shp, c, v, h => by
    revert h
    show has_shape (a :: b :: ty) (s :: shp) (arr a v) = true →
      has_shape (a :: b :: ty) (s :: shp)
        (arr a (read_loop (read_buffer arith data (b :: ty)) c v).2) = true
    intro h
    simp only [has_shape_cons, Bool.and_eq_true, decide_eq_true_eq] at h ⊢
    exact ⟨by rw [read_loop_length]; exact h.1,
      read_loop_all _ (has_shape (b :: ty) shp)
        (fun c x hx => read_buffer_has_shape arith data (b :: ty) shp c x hx) v c h.2⟩

end Reader

/-! ## Values of one shape, resizing -/

section Shape
variable {α : Type}

theorem eq_of_flatMap_eq {β γ : Type} (f : β → List γ) (k : Nat) :
    ∀ (l l' : List β), l.length = l'.length →
      (∀ x ∈ l, (f x).length = k) → (∀ x ∈ l', (f x).length = k) →
      (∀ x ∈ l, ∀ y ∈ l', f x = f y → x = y) →
      l.flatMap f = l'.flatMap f → l = l'
  | [], [], _, _, _, _, _ => rfl
  | [], _ :: _, h, _, _, _, _ => by simp at h
  | _ :: _, [], h, _, _, _, _ => by simp at h
  | x :: xs, y :: ys, h, h1, h2, hinj, he => by
    simp only [List.flatMap_cons] at he
    have hl : (f x).length = (f y).length := by
      rw [h1 x (List.mem_cons_self _ _), h2 y (List.mem_cons_self _ _)]
    obtain ⟨e1, e2⟩ := List.append_inj he hl
    have exy := hinj x (List.mem_cons_self _ _) y (List.mem_cons_self _ _) e1
    have := eq_of_flatMap_eq f k xs ys (by simpa using h)
      (fun z hz => h1 z (List.mem_cons_of_mem _ hz))
      (fun z hz => h2 z (List.mem_cons_of_mem _ hz))
      (fun a ha b hb => hinj a (List.mem_cons_of_mem _ ha) b (List.mem_cons_of_mem _ hb)) e2
    rw [exy, this]

theorem eq_of_has_shape_of_flatten_eq :
    ∀ (ty : List Axis) (shp : List Nat) (v w : Value α ty),
      has_shape ty shp v = true → has_shape ty shp w = true →
      flatten ty v = flatten ty w → v = w
  | [], _, v, w, _, _, h => by simpa using h
  | _ :: _, [], _, _, h, _, _ => by simp [has_shape] at h
  | a :: ty, s :: shp, v, w, hv, hw, h => by
    revert hv hw h
    show has_shape (a :: ty) (s :: shp) (arr a v) = true →
      has_shape (a :: ty) (s :: shp) (arr a w) = true →
      flatten (a :: ty) (arr a v) = flatten (a :: ty) (arr a w) → arr a v = arr a w
    intro hv hw h
    simp only [has_shape_cons, Bool.and_eq_true, decide_eq_true_eq, List.all_eq_true] at hv hw
    simp only [flatten_cons] at h
    exact eq_of_flatMap_eq (flatten ty) shp.prod v w (by rw [hv.1, hw.1])
      (fun x hx => length_flatten_of_has_shape ty shp x (hv.2 x hx))
      (fun x hx => length_flatten_of_has_shape ty shp x (hw.2 x hx))
      (fun x hx y hy e => eq_of_has_shape_of_flatten_eq ty shp x y (hv.2 x hx) (hw.2 y hy) e) h

theorem length_set_length {β : Type} (k : Nat) (d : β) (l : List β) :
    (set_length k d l).length = k := by
  simp only [set_length, List.length_append, List.length_take, List.length_replicate]
  omega

theorem set_length_zero {β : Type} (d : β) (l : List β) : set_length 0 d l = [] := by
  simp [set_length]

theorem has_shape_resize [Inhabited α] :
    ∀ (ty : List Axis) (shp : List Nat) (old : Value α ty),
      fits ty shp = true → has_shape ty shp (resize ty shp old) = true
  | [], [], _, _ => rfl
  | [], _ :: _, _, h => by simp [fits] at h
  | _ :: _, [], _, h => by simp [fits] at h
  | .static n :: ty, s :: shp, old, h => by
    simp only [fits, Bool.and_eq_true, decide_eq_true_eq, Bool.or_eq_true] at h
    obtain ⟨rfl, h⟩ := h
    show has_shape (.static s :: ty) (s :: shp)
      (arr (.static s) ((set_length s (blank ty) old).map (resize ty shp))) = true
    simp only [has_shape_cons, List.length_map, length_set_length, decide_True, Bool.true_and,
      List.all_eq_true, List.mem_map, forall_exists_index, and_imp, forall_apply_eq_imp_iff₂]
    rcases h with h | h
    · subst h; simp [set_length_zero]
    · intro x _; exact has_shape_resize ty shp x h
  | .dynamic :: ty, s :: shp, old, h => by
    simp only [fits, Bool.or_eq_true, decide_eq_true_eq] at h
    show has_shape (.dynamic :: ty) (s :: shp)
      (arr .dynamic ((set_length s (blank ty) old).map (resize ty shp))) = true
    simp only [has_shape_cons, List.length_map, length_set_length, decide_True, Bool.true_and,
      List.all_eq_true, List.mem_map, forall_exists_index, and_imp, forall_apply_eq_imp_iff₂]
    rcases h with h | h
    · subst h; simp [set_length_zero]
    · intro x _; exact has_shape_resize ty shp x h

theorem fits_of_conforms :
    ∀ (ty : List Axis) (shp : List Nat) (v : Value α ty),
      has_shape ty shp v = true → conforms ty v = true → fits ty shp = true
  | [], [], _, _, _ => rfl
  | [], _ :: _, _, h, _ => by simp [has_shape] at h
  | _ :: _, [], _, h, _ => by simp [has_shape] at h
  | .static n :: ty, s :: shp, v, h, hc => by
    revert h hc
    show has_shape (.static n :: ty) (s :: shp) (arr (.static n) v) = true →
      conforms (.static n :: ty) (arr (.static n) v) = true → _
    intro h hc
    simp only [has_shape_cons, Bool.and_eq_true, decide_eq_true_eq, List.all_eq_true] at h
    simp only [conforms, coeffs_eq, Bool.and_eq_true, decide_eq_true_eq, List.all_eq_true] at hc
    simp only [fits, Bool.and_eq_true, decide_eq_true_eq, Bool.or_eq_true]
    refine ⟨by rw [← h.1, hc.1], ?_⟩
    cases v with
    | nil => left; simpa using h.1.symm
    | cons c cs =>
      right
      exact fits_of_conforms ty shp c (h.2 c (List.mem_cons_self _ _))
        (hc.2 c (List.mem_cons_self _ _))
  | .dynamic :: ty, s :: shp, v, h, hc => by
    revert h hc
    show has_shape (.dynamic :: ty) (s :: shp) (arr .dynamic v) = true →
      conforms (.dynamic :: ty) (arr .dynamic v) = true → _
    intro h hc
    simp only [has_shape_cons, Bool.and_eq_true, decide_eq_true_eq, List.all_eq_true] at h
    simp only [conforms, coeffs_eq, List.all_eq_true] at hc
    simp only [fits, Bool.or_eq_true, decide_eq_true_eq]
    cases v with
    | nil => left; simpa using h.1.symm
    | cons c cs =>
      right
      exact fits_of_conforms ty shp c (h.2 c (List.mem_cons_self _ _))
        (hc c (List.mem_cons_self _ _))

end Shape

/-! ## Multi-indices and row-major positions -/

section Index
variable {α : Type}

theorem foldl_row_major :
    ∀ (shp idx : List Nat) (acc : Nat), in_range shp idx →
      (List.zip shp idx).foldl (fun acc p => acc * p.1 + p.2) acc =
        acc * shp.prod + row_major shp idx
  | [], [], acc, _ => by simp [row_major]
  | [], _ :: _, _, h => by cases h
  | _ :: _, [], _, h => by cases h
  | s :: shp, i :: idx, acc, h => by
    cases h with
    | cons _ h' =>
      simp only [row_major, List.zip_cons_cons, List.foldl_cons, List.prod_cons]
      rw [foldl_row_major shp idx (acc * s + i) h', foldl_row_major shp idx (0 * s + i) h']
      ring

theorem row_major_cons (s i : Nat) (shp idx : List Nat) (h : in_range shp idx) :
    row_major (s :: shp) (i :: idx) = i * shp.prod + row_major shp idx := by
  show (List.zip shp idx).foldl (fun acc p => acc * p.1 + p.2) (0 * s + i) = _
  rw [foldl_row_major shp idx _ h]
  simp

theorem row_major_lt : ∀ (shp idx : List Nat), in_range shp idx → row_major shp idx < shp.prod
  | [], [], _ => by simp [row_major]
  | [], _ :: _, h => by cases h
  | _ :: _, [], h => by cases h
  | s :: shp, i :: idx, h => by
    cases h with
    | cons hi h' =>
      rw [row_major_cons s i shp idx h', List.prod_cons]
      have := row_major_lt shp idx h'
      calc i * shp.prod + row_major shp idx < i * shp.prod + shp.prod := by omega
        _ = (i + 1) * shp.prod := by ring
        _ ≤ s * shp.prod := Nat.mul_le_mul_right _ hi

theorem getElem?_flatMap_const {β γ : Type} (f : β → List γ) (k j : Nat) (hj : j < k) :
    ∀ (l : List β) (i : Nat), (∀ x ∈ l, (f x).length = k) →
      (l.flatMap f)[i * k + j]? = (l[i]?).bind (fun c => (f c)[j]?)
  | [], _, _ => by simp
  | x :: xs, 0, h => by
    have hx := h x (List.mem_cons_self _ _)
    simp only [List.flatMap_cons, Nat.zero_mul, Nat.zero_add, List.getElem?_cons_zero,
      Option.some_bind]
    rw [List.getElem?_append_left (by omega)]
  | x :: xs, i + 1, h => by
    have hx := h x (List.mem_cons_self _ _)
    simp only [List.flatMap_cons, List.getElem?_cons_succ]
    rw [List.getElem?_append_right (by rw [hx]; nlinarith), hx,
      ← getElem?_flatMap_const f k j hj xs i (fun y hy => h y (List.mem_cons_of_mem _ hy))]
    congr 1
    rw [Nat.add_mul, Nat.one_mul]
    omega

theorem coeff_at_eq_flatten :
    ∀ (ty : List Axis) (shp idx : List Nat) (v : Value α ty),
      has_shape ty shp v = true → in_range shp idx →
      coeff_at ty v idx = (flatten ty v)[row_major shp idx]?
  | [], [], [], _, _, _ => by simp [coeff_at, row_major]
  | [], [], _ :: _, _, _, h => by cases h
  | [], _ :: _, _, _, h, _ => by simp [has_shape] at h
  | _ :: _, [], _, _, h, _ => by simp [has_shape] at h
  | _ :: _, _ :: _, [], _, _, h => by cases h
  | a :: ty, s :: shp, i :: idx, v, h, hr => by
    revert h
    show has_shape (a :: ty) (s :: shp) (arr a v) = true →
      coeff_at (a :: ty) (arr a v) (i :: idx) = (flatten (a :: ty) (arr a v))[_]?
    intro h
    simp only [has_shape_cons, Bool.and_eq_true, decide_eq_true_eq, List.all_eq_true] at h
    cases hr with
    | cons hi hr' =>
      rw [row_major_cons s i shp idx hr', flatten_cons,
        getElem?_flatMap_const (flatten ty) shp.prod _ (row_major_lt shp idx hr') v i
          (fun x hx => length_flatten_of_has_shape ty shp x (h.2 x hx))]
      have hiv : i < v.length := by rw [h.1]; exact hi
      simp only [coeff_at, coeffs_eq, List.getElem?_eq_getElem hiv, Option.some_bind]
      exact coeff_at_eq_flatten ty shp idx _ (h.2 _ (List.getElem_mem _)) hr'

end Index

/-! ## The stride loop -/

section Stride

theorem stride_loop_spec (shp : List Nat) :
    ∀ (n : Nat) (stride : List Nat), n < stride.length → stride.length = shp.length →
      ∃ st, stride_loop shp n stride = some st ∧ st.length = stride.length ∧
        (∀ j, n ≤ j → st.getD j 0 = stride.getD j 0) ∧
        (∀ i, i < n → st.getD i 0 = (shp.getD (i + 1) 0 * st.getD (i + 1) 0) % 2 ^ 64)
  | 0, stride, _, _ => ⟨stride, rfl, rfl, fun _ _ => rfl, fun _ h => absurd h (Nat.not_lt_zero _)⟩
  | i + 1, stride, hn, hl => by
    have h1 : shp[i + 1]? = some (shp.getD (i + 1) 0) := by
      rw [List.getD_eq_getElem?_getD, List.getElem?_eq_getElem (by omega)]; rfl
    have h2 : stride[i + 1]? = some (stride.getD (i + 1) 0) := by
      rw [List.getD_eq_getElem?_getD, List.getElem?_eq_getElem hn]; rfl
    have hi : i < stride.length := by omega
    obtain ⟨st, e1, e2, e3, e4⟩ := stride_loop_spec shp i
      (stride.set i ((shp.getD (i + 1) 0 * stride.getD (i + 1) 0) % 2 ^ 64))
      (by rw [List.length_set]; exact hi) (by rw [List.length_set]; exact hl)
    refine ⟨st, ?_, ?_, ?_, ?_⟩
    · simp only [stride_loop, h1, h2, hi, if_true]
      exact e1
    · rw [e2, List.length_set]
    · intro j hj
      rw [e3 j (by omega), List.getD_eq_getElem?_getD, List.getElem?_set_ne (by omega),
        ← List.getD_eq_getElem?_getD]
    · intro k hk
      by_cases hki : k < i
      · exact e4 k hki
      · have hk' : k = i := by omega
        subst hk'
        rw [e3 k (le_refl _), e3 (k + 1) (by omega)]
        rw [List.getD_eq_getElem?_getD, List.getElem?_set_self hi,
          List.getD_eq_getElem?_getD (l := stride.set k _), List.getElem?_set_ne (by omega),
          ← List.getD_eq_getElem?_getD]
        rfl

theorem toInt32_of_lt {n : Nat} (h : n < 2 ^ 31) : toInt32 n = (n : Int) := by
  have h' : n % 2 ^ 32 = n := Nat.mod_eq_of_lt (by omega)
  unfold toInt32
  rw [h', if_pos h]

theorem cast_stride_spec (e : Nat) (shp : List Nat) (h0 : shp ≠ []) (hd : shp.length < 2 ^ 31) :
    ∃ st, cast_stride e shp = some st ∧ st.length = shp.length ∧
      st.getD (shp.length - 1) 0 = e ∧
      (∀ i, i + 1 < shp.length →
        st.getD i 0 = (shp.getD (i + 1) 0 * st.getD (i + 1) 0) % 2 ^ 64) := by
  have hpos : 0 < shp.length := List.length_pos.mpr h0
  have hlast : (shp.length + (2 ^ 64 - 1)) % 2 ^ 64 = shp.length - 1 := by omega
  have hcnt : (toInt32 shp.length - 2 + 1).toNat = shp.length - 1 := by
    rw [toInt32_of_lt hd]; omega
  obtain ⟨st, e1, e2, e3, e4⟩ := stride_loop_spec shp (shp.length - 1)
    ((List.replicate shp.length 0).set (shp.length - 1) e)
    (by simp; omega) (by simp)
  refine ⟨st, ?_, ?_, ?_, ?_⟩
  · unfold cast_stride
    simp only [hlast, hcnt, List.length_replicate]
    rw [if_pos (by omega)]
    exact e1
  · simpa using e2
  · rw [e3 _ (le_refl _), List.getD_eq_getElem?_getD, List.getElem?_set_self (by simp; omega)]
    rfl
  · intro i hi
    exact e4 i (by omega)

theorem cast_stride_isSome (e : Nat) (shp : List Nat) (h0 : shp ≠ []) :
    ∃ st, cast_stride e shp = some st := by
  have hpos : 0 < shp.length := List.length_pos.mpr h0
  have hlast : (shp.length + (2 ^ 64 - 1)) % 2 ^ 64 < shp.length := by
    by_cases h : shp.length ≤ 2 ^ 64
    · have : (shp.length + (2 ^ 64 - 1)) % 2 ^ 64 = shp.length - 1 := by omega
      omega
    · have := Nat.mod_lt (shp.length + (2 ^ 64 - 1)) (show 0 < 2 ^ 64 by norm_num)
      omega
  have hcnt : (toInt32 shp.length - 2 + 1).toNat < shp.length := by
    unfold toInt32
    have := Nat.mod_le shp.length (2 ^ 32)
    split <;> omega
  obtain ⟨st, e1, _⟩ := stride_loop_spec shp (toInt32 shp.length - 2 + 1).toNat
    ((List.replicate shp.length 0).set ((shp.length + (2 ^ 64 - 1)) % 2 ^ 64) e)
    (by simpa using hcnt) (by simp)
  refine ⟨st, ?_⟩
  unfold cast_stride
  simp only [List.length_replicate]
  rw [if_pos hlast]
  exact e1

theorem length_exact_strides (e : Nat) : ∀ shp : List Nat, (exact_strides e shp).length = shp.length
  | [] => rfl
  | _ :: shp => by simp [exact_strides, length_exact_strides e shp]

theorem getD_exact_strides (e : Nat) :
    ∀ (shp : List Nat) (i : Nat), i < shp.length →
      (exact_strides e shp).getD i 0 = e * (shp.drop (i + 1)).prod
  | [], _, h => by simp at h
  | _ :: shp, 0, _ => by simp [exact_strides]
  | _ :: shp, i + 1, h => by
    simp only [exact_strides, List.getD_cons_succ, List.drop_succ_cons]
    exact getD_exact_strides e shp i (by simpa using h)

theorem getD_closed_form (e : Nat) (shp st : List Nat) (hl : st.length = shp.length)
    (hlast : st.getD (shp.length - 1) 0 = e)
    (hrec : ∀ i, i + 1 < shp.length →
      st.getD i 0 = (shp.getD (i + 1) 0 * st.getD (i + 1) 0) % 2 ^ 64)
    (hfit : ∀ i, i < shp.length → e * (shp.drop (i + 1)).prod < 2 ^ 64) :
    ∀ (m i : Nat), i + m + 1 = shp.length → st.getD i 0 = e * (shp.drop (i + 1)).prod
  | 0, i, h => by
    have hi : i = shp.length - 1 := by omega
    rw [hi, hlast, List.drop_of_length_le (by omega)]
    simp
  | m + 1, i, h => by
    have ih := getD_closed_form e shp st hl hlast hrec hfit m (i + 1) (by omega)
    have hd : shp.drop (i + 1) = shp.getD (i + 1) 0 :: shp.drop (i + 1 + 1) := by
      rw [List.getD_eq_getElem _ _ (by omega)]
      exact List.drop_eq_getElem_cons (by omega)
    have hf := hfit i (by omega)
    rw [hd, List.prod_cons] at hf ⊢
    rw [hrec i (by omega), ih]
    have : shp.getD (i + 1) 0 * (e * (shp.drop (i + 1 + 1)).prod) =
        e * (shp.getD (i + 1) 0 * (shp.drop (i + 1 + 1)).prod) := by ring
    rw [this, Nat.mod_eq_of_lt hf]

theorem eq_exact_strides (e : Nat) (shp st : List Nat) (hl : st.length = shp.length)
    (hlast : st.getD (shp.length - 1) 0 = e)
    (hrec : ∀ i, i + 1 < shp.length →
      st.getD i 0 = (shp.getD (i + 1) 0 * st.getD (i + 1) 0) % 2 ^ 64)
    (hfit : ∀ i, i < shp.length → e * (shp.drop (i + 1)).prod < 2 ^ 64) :
    st = exact_strides e shp := by
  apply List.ext_getElem (by rw [hl, length_exact_strides])
  intro i h1 h2
  have hi : i < shp.length := by omega
  rw [← List.getD_eq_getElem st 0 h1, ← List.getD_eq_getElem (exact_strides e shp) 0 h2,
    getD_exact_strides e shp i hi]
  exact getD_closed_form e shp st hl hlast hrec hfit (shp.length - 1 - i) i (by omega)

theorem pos_of_in_range : ∀ (shp idx : List Nat), in_range shp idx → ∀ s ∈ shp, 0 < s
  | [], [], _ => by simp
  | [], _ :: _, h => by cases h
  | _ :: _, [], h => by cases h
  | s :: shp, i :: idx, h => by
    cases h with
    | cons hi h' =>
      intro t ht
      rcases List.mem_cons.mp ht with rfl | ht
      · omega
      · exact pos_of_in_range shp idx h' t ht

theorem prod_drop_le : ∀ (shp : List Nat) (k : Nat), (∀ s ∈ shp, 0 < s) →
    (shp.drop k).prod ≤ shp.prod
  | [], _, _ => by simp
  | _ :: _, 0, _ => by simp
  | s :: shp, k + 1, h => by
    simp only [List.drop_succ_cons, List.prod_cons]
    have h1 := prod_drop_le shp k (fun t ht => h t (List.mem_cons_of_mem _ ht))
    have h2 := h s (List.mem_cons_self _ _)
    calc (shp.drop k).prod ≤ shp.prod := h1
      _ = 1 * shp.prod := by simp
      _ ≤ s * shp.prod := Nat.mul_le_mul_right _ h2

theorem byte_offset_exact_strides (e : Nat) :
    ∀ (shp idx : List Nat), in_range shp idx →
      byte_offset (exact_strides e shp) idx = e * row_major shp idx
  | [], [], _ => by simp [byte_offset, exact_strides, row_major]
  | [], _ :: _, h => by cases h
  | _ :: _, [], h => by cases h
  | s :: shp, i :: idx, h => by
    cases h with
    | cons hi h' =>
      have ih := byte_offset_exact_strides e shp idx h'
      unfold byte_offset at ih ⊢
      rw [row_major_cons s i shp idx h']
      simp only [exact_strides, List.zipWith_cons_cons, List.sum_cons, ih]
      ring

end Stride

/-! ## The entry points -/

section Entry
variable {α : Type}

theorem all_enumFrom_lt (n : Nat) :
    ∀ (l : List α) (k : Nat), k + l.length ≤ n →
      (List.enumFrom k l).all (fun s => decide (s.1 < n)) = true
  | [], _, _ => rfl
  | x :: xs, k, h => by
    simp only [List.length_cons] at h
    simp only [List.enumFrom_cons, List.all_cons, Bool.and_eq_true, decide_eq_true_eq]
    exact ⟨by omega, all_enumFrom_lt n xs (k + 1) (by omega)⟩

theorem shape_ne_nil (a : Axis) (ty : List Axis) (v : Value α (a :: ty)) :
    shape (a :: ty) v ≠ [] := by
  intro h
  have := shape_length (a :: ty) v
  rw [h] at this
  simp at this

variable [Inhabited α]

theorem cast_arith_run (e : Nat) (a : Axis) (ty : List Axis) (v : Value α (a :: ty))
    (st : List Nat) (hr : ragged (a :: ty) v = false)
    (hst : cast_stride e (shape (a :: ty) v) = some st) :
    cast true e (a :: ty) v =
      ⟨some (shape (a :: ty) v, st), List.enumFrom 0 (flatten (a :: ty) v),
        .ok ⟨shape (a :: ty) v, st, flatten (a :: ty) v⟩⟩ := by
  have hlen := length_flatten_of_has_shape _ _ v (has_shape_of_not_ragged _ v hr)
  unfold cast
  rw [if_neg (by rw [hr]; exact Bool.false_ne_true)]
  simp only [hst, write_buffer_arith]
  rw [if_pos (all_enumFrom_lt _ _ 0 (by rw [List.length_replicate, hlen]; omega)), ← hlen,
    apply_stores_enumFrom]

theorem cast_not_arith_run (e : Nat) (ty : List Axis) (v : Value α ty)
    (st : List Nat) (hr : ragged ty v = false) (hst : cast_stride e (shape ty v) = some st) :
    cast false e ty v =
      ⟨some (shape ty v, st), [],
        .ok ⟨shape ty v, st, List.replicate (shape ty v).prod default⟩⟩ := by
  unfold cast
  rw [if_neg (by rw [hr]; exact Bool.false_ne_true)]
  simp only [hst, write_buffer_not_arith]
  rfl

theorem load_accepts {H : Type} (arith : Bool) (ty : List Axis) (ensure : H → Option (NdArray α))
    (src : H) (value : Value α ty) (arr : NdArray α) (he : ensure src = some arr)
    (hn : arr.ndim = array_depth ty) :
    load arith ty ensure src value =
      if (read_buffer arith arr.data ty 0 (resize ty arr.shape value)).1 ≤ arr.data.length then
        .returned true (read_buffer arith arr.data ty 0 (resize ty arr.shape value)).2
      else .out_of_bounds := by
  unfold load
  simp only [he, hn, ne_eq, not_true_eq_false, if_false]
  rw [← hn, show List.take arr.ndim arr.shape = arr.shape from List.take_length arr.shape]

theorem load_rejects {H : Type} (arith : Bool) (ty : List Axis) (ensure : H → Option (NdArray α))
    (src : H) (value : Value α ty)
    (h : ensure src = none ∨ ∃ arr, ensure src = some arr ∧ arr.ndim ≠ array_depth ty) :
    load arith ty ensure src value = .returned false value := by
  unfold load
  rcases h with h | ⟨arr, he, hn⟩
  · rw [h]
  · rw [he]
    dsimp only
    rw [if_pos (fun h' => hn h'.symm)]

end Entry

/-! ## Descriptors, leaf counts and index bounds -/

section Later

theorem go_eq_name_cont :
    ∀ (ty : List Axis) (acc : String),
      String.intercalate.go acc ", " (ty.map axis_entry) = acc ++ name_cont ty
  | [], acc => by simp [String.intercalate.go, name_cont]
  | .static n :: ty, acc => by
    simp only [List.map_cons, String.intercalate.go, go_eq_name_cont ty, name_cont, axis_entry,
      descr_size, String.append_assoc]
  | .dynamic :: ty, acc => by
    have h : ", " ++ "n" = ", n" := by decide
    simp only [List.map_cons, String.intercalate.go, go_eq_name_cont ty, name_cont, axis_entry,
      String.append_assoc]
    rw [← String.append_assoc ", " "n", h]

theorem array_shape_descr_eq : ∀ ty : List Axis, array_shape_descr ty = shape_part ty
  | [] => rfl
  | .static n :: ty => by
    simp only [array_shape_descr, shape_part, List.map_cons, String.intercalate,
      go_eq_name_cont ty, axis_entry, descr_size]
  | .dynamic :: ty => by
    simp only [array_shape_descr, shape_part, List.map_cons, String.intercalate,
      go_eq_name_cont ty, axis_entry]

theorem length_flatten_eq_leaf_count {α : Type} :
    ∀ (a : Axis) (ty : List Axis) (v : Value α (a :: ty)),
      (flatten (a :: ty) v).length = leaf_count (a :: ty) v
  | a, [], v => by
    show ((arr a v).flatMap (flatten [])).length = List.length v
    rw [flatMap_flatten_nil]
  | a, b :: ty, v => by
    show (List.flatMap v (flatten (b :: ty))).length = (List.map (leaf_count (b :: ty)) v).sum
    induction (v : List (Value α (b :: ty))) with
    | nil => rfl
    | cons c cs ih =>
      simp only [List.flatMap_cons, List.length_append, List.map_cons, List.sum_cons, ih,
        length_flatten_eq_leaf_count b ty c]

theorem read_cursor_of_fits {α : Type} [Inhabited α] (a : Axis) (ty : List Axis)
    (data : List α) (shp : List Nat) (old : Value α (a :: ty))
    (hf : fits (a :: ty) shp = true) :
    (read_buffer true data (a :: ty) 0 (resize (a :: ty) shp old)).1 = shp.prod := by
  rw [(read_buffer_arith data a ty 0 _).1,
    length_flatten_of_has_shape _ _ _ (has_shape_resize (a :: ty) shp old hf), Nat.zero_add]

theorem lt_of_mem_stride_indices (D : Nat) (h : 1 ≤ D) : ∀ j ∈ stride_indices D, j < D := by
  have hcnt : (toInt32 D - 2 + 1).toNat < D := by
    unfold toInt32
    have := Nat.mod_le D (2 ^ 32)
    split <;> omega
  intro j hj
  unfold stride_indices at hj
  rcases List.mem_cons.mp hj with hj | hj
  · by_cases hD : D ≤ 2 ^ 64
    · have : (D + (2 ^ 64 - 1)) % 2 ^ 64 = D - 1 := by omega
      omega
    · have := Nat.mod_lt (D + (2 ^ 64 - 1)) (show 0 < 2 ^ 64 by norm_num)
      omega
  · simp only [List.mem_flatMap, List.mem_reverse, List.mem_range, List.mem_cons,
      List.mem_singleton, List.not_mem_nil, or_false] at hj
    obtain ⟨i, hi, rfl | rfl⟩ := hj <;> omega

theorem cast_stride_length (e : Nat) (shp : List Nat) (h : 1 ≤ shp.length) :
    ∃ st, cast_stride e shp = some st ∧ st.length = shp.length := by
  have hlast : (shp.length + (2 ^ 64 - 1)) % 2 ^ 64 < shp.length :=
    lt_of_mem_stride_indices shp.length h _ (List.mem_cons_self _ _)
  have hcnt : (toInt32 shp.length - 2 + 1).toNat < shp.length := by
    unfold toInt32
    have := Nat.mod_le shp.length (2 ^ 32)
    split <;> omega
  obtain ⟨st, e1, e2, _⟩ := stride_loop_spec shp (toInt32 shp.length - 2 + 1).toNat
    ((List.replicate shp.length 0).set ((shp.length + (2 ^ 64 - 1)) % 2 ^ 64) e)
    (by simpa using hcnt) (by simp)
  refine ⟨st, ?_, by simpa using e2⟩
  unfold cast_stride
  simp only [List.length_replicate]
  rw [if_pos hlast]
  exact e1

theorem prod_drop_shape_le {α : Type} :
    ∀ (ty : List Axis) (v : Value α ty) (k : Nat),
      ((shape ty v).drop k).prod ≤ max 1 (shape ty v).prod
  | [], _, k => by simp
  | a :: ty, v, 0 => by simp
  | a :: ty, v, k + 1 => by
    show ((shape (a :: ty) (arr a v)).drop (k + 1)).prod ≤ max 1 (shape (a :: ty) (arr a v)).prod
    cases v with
    | nil =>
      rw [shape_cons_nil, List.drop_succ_cons, List.drop_replicate, List.prod_replicate]
      have h0 : (0 : Nat) ^ (ty.length - k) ≤ 1 := by
        cases ty.length - k <;> simp
      exact le_trans h0 (le_max_left _ _)
    | cons c cs =>
      rw [shape_cons_cons, List.drop_succ_cons, List.prod_cons]
      have ih := prod_drop_shape_le ty c k
      have h1 : (shape ty c).prod ≤ (cs.length + 1) * (shape ty c).prod :=
        Nat.le_mul_of_pos_left _ (by omega)
      exact le_trans ih (max_le_max (le_refl 1) h1)

theorem stride_bound_of_value {α : Type} (e : Nat) (ty : List Axis) (v : Value α ty)
    (he : e < 2 ^ 64) (hmem : e * (shape ty v).prod < 2 ^ 64) :
    ∀ i, i < (shape ty v).length → e * ((shape ty v).drop (i + 1)).prod < 2 ^ 64 := by
  intro i _
  have h := prod_drop_shape_le ty v (i + 1)
  rcases le_max_iff.mp h with h1 | h1
  · calc e * ((shape ty v).drop (i + 1)).prod ≤ e * 1 := Nat.mul_le_mul_left e h1
      _ = e := Nat.mul_one e
      _ < 2 ^ 64 := he
  · exact lt_of_le_of_lt (Nat.mul_le_mul_left e h1) hmem

end Later

/-! ## Main results -/

section Main

/-- C2. `cast` raises the ragged-array error exactly when `ragged` reports true, and
when it does no buffer has been constructed and no element has been stored. -/
theorem cast_raises_iff_ragged {α : Type} [Inhabited α] (arith : Bool) (e : Nat)
    (ty : List Axis) (v : Value α ty) :
    ((cast arith e ty v).result = .error (.type_error "Ragged arrays are not supported!") ↔
        ragged ty v = true) ∧
      (ragged ty v = true →
        (cast arith e ty v).allocated = none ∧ (cast arith e ty v).stores = []) := by
  cases hr : ragged ty v with
  | true =>
    have : cast arith e ty v =
        ⟨none, [], .error (.type_error "Ragged arrays are not supported!")⟩ := by
      unfold cast
      rw [if_pos hr]
    rw [this]
    exact ⟨⟨fun _ => rfl, fun _ => rfl⟩, fun _ => ⟨rfl, rfl⟩⟩
  | false =>
    refine ⟨⟨fun h => ?_, fun h => by cases h⟩, fun h => by cases h⟩
    unfold cast at h
    rw [if_neg (by rw [hr]; exact Bool.false_ne_true)] at h
    dsimp only at h
    cases hs : cast_stride e (shape ty v) with
    | none =>
      rw [hs] at h
      exact absurd h (by intro h'; cases h')
    | some st =>
      rw [hs] at h
      dsimp only at h
      split at h <;> exact absurd h (by intro h'; cases h')

/-- C2, at a depth-2 value whose sub-arrays have lengths 3, 3 and 2. -/
theorem cast_raises_iff_ragged_witness :
    ragged [Axis.dynamic, Axis.dynamic]
        ragged_332 = true ∧
      (cast true 4 [Axis.dynamic, Axis.dynamic]
        ragged_332).result =
          .error (.type_error "Ragged arrays are not supported!") ∧
      (cast true 4 [Axis.dynamic, Axis.dynamic]
        ragged_332).allocated =
          none ∧
      (cast true 4 [Axis.dynamic, Axis.dynamic]
        ragged_332).stores =
          [] :=
  have h := cast_raises_iff_ragged true 4 [Axis.dynamic, Axis.dynamic]
    ragged_332
  ⟨by decide, h.1.2 (by decide), (h.2 (by decide)).1, (h.2 (by decide)).2⟩

theorem load_outcome {α H : Type} [Inhabited α] (arith : Bool) (ty : List Axis)
    (ensure : H → Option (NdArray α)) (src : H) (value : Value α ty) :
    (∀ what, load arith ty ensure src value ≠ .raised what) ∧
      ((∃ v, load arith ty ensure src value = .returned true v) →
        ∃ arr, ensure src = some arr ∧ arr.ndim = array_depth ty) ∧
      (load arith ty ensure src value = .returned false value ↔
        (ensure src = none ∨ ∃ arr, ensure src = some arr ∧ arr.ndim ≠ array_depth ty)) ∧
      (∀ arr, ensure src = some arr → arr.ndim = 3 → array_depth ty = 2 →
        load arith ty ensure src value = .returned false value) := by
  have hrej := load_rejects arith ty ensure src value
  cases he : ensure src with
  | none =>
    have hl := hrej (Or.inl he)
    rw [hl]
    refine ⟨fun _ h => (by cases h), fun ⟨_, h⟩ => (by cases h),
      ⟨fun _ => Or.inl rfl, fun _ => rfl⟩, fun _ h => (by cases h)⟩
  | some arr =>
    by_cases hn : arr.ndim = array_depth ty
    · have hl := load_accepts arith ty ensure src value arr he hn
      rw [hl]
      refine ⟨fun _ h => ?_, fun _ => ⟨arr, rfl, hn⟩, ⟨fun h => ?_, fun h => ?_⟩, fun b hb h3 h2 => ?_⟩
      · split at h <;> cases h
      · split at h <;> cases h
      · rcases h with h | ⟨b, hb, hne⟩
        · cases h
        · cases hb; exact absurd hn hne
      · cases hb; rw [h3, h2] at hn; cases hn
    · have hl := hrej (Or.inr ⟨arr, he, hn⟩)
      rw [hl]
      refine ⟨fun _ h => (by cases h), fun ⟨_, h⟩ => (by cases h),
        ⟨fun _ => Or.inr ⟨arr, rfl, hn⟩, fun _ => rfl⟩, fun _ _ _ _ => rfl⟩

/-- C3, at the failing input: a depth-2 target whose inner level is static of length
3 and a buffer of shape `[1, 2]`. The object is a buffer and its dimensionality is
the depth, yet `load` does not return true: the inner level keeps its 3 elements,
`read_buffer` copies 3 elements from a buffer that holds 2, and the call ends in an
out-of-bounds read. -/
theorem load_static_not_returned :
    (NdArray.mk [1, 2] [8, 4] [(1 : Int), 2]).ndim =
        array_depth [Axis.dynamic, Axis.static 3] ∧
      load true [Axis.dynamic, Axis.static 3] some (NdArray.mk [1, 2] [8, 4] [(1 : Int), 2])
        empty_rows = .out_of_bounds ∧
      ¬ ∃ v, load true [Axis.dynamic, Axis.static 3] some
        (NdArray.mk [1, 2] [8, 4] [(1 : Int), 2]) empty_rows = .returned true v := by
  have h : load true [Axis.dynamic, Axis.static 3] some
      (NdArray.mk [1, 2] [8, 4] [(1 : Int), 2]) empty_rows = .out_of_bounds := rfl
  refine ⟨rfl, h, fun ⟨v, hv⟩ => ?_⟩
  rw [h] at hv
  cases hv

/-- C7, as stated, fails for a non-arithmetic scalar type: on a depth-1 value of two
composite scalars `write_buffer` stores nothing and leaves the cursor where it was,
although the shape is `[2]`. -/
theorem write_buffer_cursor_not_arithmetic :
    shape [Axis.static 2] pairs_2 = [2] ∧
      ragged [Axis.static 2] pairs_2 = false ∧
      (write_buffer false [Axis.static 2] 0 pairs_2).1 = 0 ∧
      (write_buffer false [Axis.static 2] 0 pairs_2).2 = [] ∧
      ¬ ((write_buffer false [Axis.static 2] 0 pairs_2).1 =
          0 + (shape [Axis.static 2] pairs_2).prod) := by
  decide

/-- C7 (amended). For an arithmetic scalar type and a non-ragged value of shape
`[s0, ..., sk]`, `write_buffer` started at cursor `c` ends with the cursor at
`c + s0 * ... * sk`, and the positions it stored to are `c, c + 1, ...` up to the
final cursor, each exactly once and in this order. -/
theorem write_buffer_cursor {α : Type} (a : Axis) (ty : List Axis) (c : Nat)
    (v : Value α (a :: ty)) (hr : ragged (a :: ty) v = false) :
    (write_buffer true (a :: ty) c v).1 = c + (shape (a :: ty) v).prod ∧
      (write_buffer true (a :: ty) c v).2.map Prod.fst =
        List.range' c (shape (a :: ty) v).prod := by
  have hlen := length_flatten_of_has_shape _ _ v (has_shape_of_not_ragged _ v hr)
  rw [write_buffer_arith, ← hlen]
  exact ⟨rfl, by simp [List.enumFrom_map_fst]⟩

/-- C7 (amended), at two rows of three integers written from cursor 10. -/
theorem write_buffer_cursor_witness :
    ragged [Axis.dynamic, Axis.static 3] rows_2x3 = false ∧
      (write_buffer true [Axis.dynamic, Axis.static 3] 10 rows_2x3).1 = 16 ∧
      (write_buffer true [Axis.dynamic, Axis.static 3] 10 rows_2x3).2.map Prod.fst =
        [10, 11, 12, 13, 14, 15] :=
  ⟨by decide,
    (write_buffer_cursor Axis.dynamic [Axis.static 3] 10 rows_2x3 (by decide)).1,
    (write_buffer_cursor Axis.dynamic [Axis.static 3] 10 rows_2x3 (by decide)).2⟩

/-- C8. For a depth-1 value of `N` arithmetic scalars `cast` returns a buffer of
shape `[N]` whose flat contents are those scalars in order (one stride, the scalar
size). -/
theorem cast_depth_one {α : Type} [Inhabited α] (e : Nat) (a : Axis) (v : Value α [a]) :
    (cast true e [a] v).result = .ok ⟨[v.coeffs.length], [e], v.coeffs⟩ := by
  have hr : ragged [a] v = false := by
    show ragged [a] (arr a v) = false
    cases v with
    | nil => rfl
    | cons c cs => simp
  have hs : shape [a] v = [v.coeffs.length] := by
    show shape [a] (arr a v) = [(arr a v).coeffs.length]
    cases v with
    | nil => rfl
    | cons c cs => simp
  have hst : cast_stride e (shape [a] v) = some [e] := by
    rw [hs]
    obtain ⟨st, h1, h2, h3, _⟩ := cast_stride_spec e [v.coeffs.length] (by simp) (by simp)
    rw [h1]
    match st, h2, h3 with
    | [x], _, h3 => simp only [List.length_singleton, Nat.sub_self, List.getD_cons_zero] at h3; rw [h3]
  rw [cast_arith_run e a [] v [e] hr hst, hs]
  show Except.ok (NdArray.mk [v.coeffs.length] [e] ((arr a v).flatMap (flatten []))) = _
  rw [flatMap_flatten_nil]
  rfl

/-- C9. For a value whose outermost level has no elements `cast` does not raise: it
returns a buffer whose shape is 0 in every slot and that holds no element. -/
theorem cast_zero_length {α : Type} [Inhabited α] (arith : Bool) (e : Nat) (a : Axis)
    (ty : List Axis) (v : Value α (a :: ty)) (h : v.coeffs.length = 0) :
    ∃ st, (cast arith e (a :: ty) v).result = .ok ⟨List.replicate (ty.length + 1) 0, st, []⟩ ∧
      (cast arith e (a :: ty) v).stores = [] := by
  have hv : v = arr a [] := List.length_eq_zero.mp h
  subst hv
  have hr : ragged (a :: ty) (arr a ([] : List (Value α ty))) = false := rfl
  have hs : shape (a :: ty) (arr a ([] : List (Value α ty))) = List.replicate (ty.length + 1) 0 :=
    rfl
  obtain ⟨st, hst⟩ := cast_stride_isSome e _ (shape_ne_nil a ty (arr a ([] : List (Value α ty))))
  refine ⟨st, ?_⟩
  cases arith with
  | true =>
    rw [cast_arith_run e a ty _ st hr hst, hs]
    exact ⟨rfl, rfl⟩
  | false =>
    rw [cast_not_arith_run e (a :: ty) _ st hr hst, hs]
    refine ⟨?_, rfl⟩
    show Except.ok (NdArray.mk _ st (List.replicate (List.replicate (ty.length + 1) 0).prod default))
      = _
    rw [List.replicate_succ, List.prod_cons, Nat.zero_mul]
    rfl

/-- C9, at the empty depth-2 value. -/
theorem cast_zero_length_witness :
    empty_2d.coeffs.length = 0 ∧
      ∃ st, (cast true 4 [Axis.dynamic, Axis.dynamic] empty_2d).result = .ok ⟨[0, 0], st, []⟩ ∧
        (cast true 4 [Axis.dynamic, Axis.dynamic] empty_2d).stores = [] :=
  ⟨rfl, cast_zero_length true 4 Axis.dynamic [Axis.dynamic] empty_2d rfl⟩

/-- C10, as stated, fails for a non-arithmetic scalar type: neither `read_buffer`
nor `write_buffer` touches a composite scalar, so reading a two-element buffer into
a value and writing that value back stores nothing. -/
theorem write_read_not_arithmetic :
    (shape [Axis.static 2] pairs_2_other).prod = [((5 : Int), (1 : Int)), (6, 2)].length ∧
      flatten [Axis.static 2]
        (read_buffer false [(5, 1), (6, 2)] [Axis.static 2] 0 pairs_2_other).2 = [(7, 3), (8, 4)] ∧
      (write_buffer false [Axis.static 2] 0
        (read_buffer false [(5, 1), (6, 2)] [Axis.static 2] 0 pairs_2_other).2).2 = [] ∧
      (write_buffer false [Axis.static 2] 0
        (read_buffer false [(5, 1), (6, 2)] [Axis.static 2] 0 pairs_2_other).2).2.map Prod.snd ≠
          [(5, 1), (6, 2)] := by
  decide

/-- C10 (amended). For an arithmetic scalar type, a flat buffer `b` and a non-ragged
value whose shape has `b.length` elements in total: `read_buffer` from `b` into
the value followed by `write_buffer` of the result stores exactly the elements of
`b`, in order, at positions `0, 1, ...`. -/
theorem write_read_inverse {α : Type} [Inhabited α] (a : Axis) (ty : List Axis) (b : List α)
    (v : Value α (a :: ty)) (hr : ragged (a :: ty) v = false)
    (hl : (shape (a :: ty) v).prod = b.length) :
    (write_buffer true (a :: ty) 0 (read_buffer true b (a :: ty) 0 v).2).2 = List.enumFrom 0 b ∧
      (write_buffer true (a :: ty) 0 (read_buffer true b (a :: ty) 0 v).2).2.map Prod.snd = b := by
  have hlen := length_flatten_of_has_shape _ _ v (has_shape_of_not_ragged _ v hr)
  have hf := (read_buffer_arith b a ty 0 v).2
  rw [hlen, hl, segment_zero_length] at hf
  rw [write_buffer_arith, hf]
  exact ⟨rfl, by simp [List.enumFrom_map_snd]⟩

/-- C10 (amended), at a six-element buffer read into two rows of three. -/
theorem write_read_inverse_witness :
    ragged [Axis.dynamic, Axis.static 3] rows_2x3 = false ∧
      (shape [Axis.dynamic, Axis.static 3] rows_2x3).prod = [(10 : Int), 20, 30, 40, 50, 60].length ∧
      (write_buffer true [Axis.dynamic, Axis.static 3] 0
        (read_buffer true [10, 20, 30, 40, 50, 60] [Axis.dynamic, Axis.static 3] 0 rows_2x3).2).2.map
          Prod.snd = [10, 20, 30, 40, 50, 60] :=
  ⟨by decide, by decide,
    (write_read_inverse Axis.dynamic [Axis.static 3] [10, 20, 30, 40, 50, 60] rows_2x3
      (by decide) (by decide)).2⟩

/-- C1, as stated, fails for a non-arithmetic scalar type: `cast` of a depth-1 value
of two composite scalars returns a buffer it never stored to, and `load` of that
buffer returns true without touching the destination's scalars. -/
theorem round_trip_not_arithmetic :
    ragged [Axis.static 2] pairs_2 = false ∧
      ∃ buf, (cast false 16 [Axis.static 2] pairs_2).result = .ok buf ∧
        load false [Axis.static 2] some buf pairs_2_other = .returned true pairs_2_other ∧
        coeff_at [Axis.static 2] pairs_2_other [0] ≠ coeff_at [Axis.static 2] pairs_2 [0] := by
  refine ⟨by decide, ⟨[2], [16], [default, default]⟩, ?_, rfl, by decide⟩
  rw [cast_not_arith_run 16 [Axis.static 2] pairs_2 [16] (by decide) (by decide)]
  rfl

/-- C1 (amended). For an arithmetic scalar type and a non-ragged value `v` of a type
of depth at least 1 that respects its static lengths, `cast` returns a buffer, and
`load` of that buffer into any destination of the same type returns true and
leaves the destination equal to `v` (same shape, same scalar at every
multi-index). -/
theorem load_cast_round_trip {α H : Type} [Inhabited α] (e : Nat) (a : Axis) (ty : List Axis)
    (v old : Value α (a :: ty)) (ensure : H → Option (NdArray α)) (src : H)
    (hc : conforms (a :: ty) v = true) (hr : ragged (a :: ty) v = false) :
    ∃ arr, (cast true e (a :: ty) v).result = .ok arr ∧
      (ensure src = some arr → load true (a :: ty) ensure src old = .returned true v) := by
  have hs := has_shape_of_not_ragged _ v hr
  have hlen := length_flatten_of_has_shape _ _ v hs
  obtain ⟨st, hst⟩ := cast_stride_isSome e _ (shape_ne_nil a ty v)
  refine ⟨⟨shape (a :: ty) v, st, flatten (a :: ty) v⟩, ?_, fun he => ?_⟩
  · rw [cast_arith_run e a ty v st hr hst]
  · rw [load_accepts true (a :: ty) ensure src old _ he (shape_length _ v)]
    have hw := has_shape_resize (a :: ty) _ old (fits_of_conforms _ _ v hs hc)
    have hw' := read_buffer_has_shape true (flatten (a :: ty) v) (a :: ty) _ 0 _ hw
    have hcur := (read_buffer_arith (flatten (a :: ty) v) a ty 0
      (resize (a :: ty) (shape (a :: ty) v) old)).1
    have hf := (read_buffer_arith (flatten (a :: ty) v) a ty 0
      (resize (a :: ty) (shape (a :: ty) v) old)).2
    rw [length_flatten_of_has_shape _ _ _ hw, ← hlen] at hcur
    rw [length_flatten_of_has_shape _ _ _ hw, ← hlen, segment_zero_length] at hf
    dsimp only
    rw [if_pos (by rw [hcur]; omega), eq_of_has_shape_of_flatten_eq _ _ _ v hw' hs hf]

/-- C1 (amended), at two rows of three integers loaded into an empty destination. -/
theorem load_cast_round_trip_witness :
    conforms [Axis.dynamic, Axis.static 3] rows_2x3 = true ∧
      ragged [Axis.dynamic, Axis.static 3] rows_2x3 = false ∧
      ∃ b, (cast true 4 [Axis.dynamic, Axis.static 3] rows_2x3).result = .ok b ∧
        ((fun _ : Unit => some (NdArray.mk [2, 3] [12, 4] [(1 : Int), 2, 3, 4, 5, 6])) () = some b →
          load true [Axis.dynamic, Axis.static 3]
            (fun _ : Unit => some (NdArray.mk [2, 3] [12, 4] [(1 : Int), 2, 3, 4, 5, 6])) ()
            empty_rows = .returned true rows_2x3) :=
  ⟨by decide, by decide,
    load_cast_round_trip 4 Axis.dynamic [Axis.static 3] rows_2x3 empty_rows
      (fun _ : Unit => some (NdArray.mk [2, 3] [12, 4] [(1 : Int), 2, 3, 4, 5, 6])) ()
      (by decide) (by decide)⟩

/-- C4, as stated, fails in two ways. For a non-arithmetic scalar type `load`
returns true and leaves the destination's scalars as they were, whatever the buffer
holds. For a target with a static level of length 3 and a buffer of shape `[5]`,
`load` returns true and the destination still has 3 elements. -/
theorem load_postcondition_fails :
    (load false [Axis.static 2] some
          (NdArray.mk [2] [16] [((5 : Int), (1 : Int)), (6, 2)]) pairs_2_other =
          .returned true pairs_2_other ∧
        coeff_at [Axis.static 2] pairs_2_other [0] = some (7, 3) ∧
        [((5 : Int), (1 : Int)), (6, 2)][row_major [2] [0]]? = some (5, 1)) ∧
      ∃ dest, load true [Axis.static 3] some (NdArray.mk [5] [4] [(1 : Int), 2, 3, 4, 5])
          triple_0 = .returned true dest ∧
        has_shape [Axis.static 3] [5] dest = false ∧
        shape [Axis.static 3] dest = [3] :=
  ⟨⟨rfl, by decide, by decide⟩,
    (read_buffer true [(1 : Int), 2, 3, 4, 5] [Axis.static 3] 0
      (resize [Axis.static 3] [5] triple_0)).2, rfl, by decide, by decide⟩

/-- C4 (amended). For an arithmetic scalar type, a buffer that holds as many elements
as its shape `[s0, ..., sk]` says, of the target's depth, and whose extent agrees
with the fixed length on every static level not nested under a zero-length axis:
`load` returns true, afterwards every level `j` of the destination has length `sj`,
and the scalar at each multi-index below the shape is the buffer's flat element at
the row-major position `((i0 * s1 + i1) * s2 + ...) * sk + ik`. -/
theorem load_postcondition {α H : Type} [Inhabited α] (a : Axis) (ty : List Axis)
    (ensure : H → Option (NdArray α)) (src : H) (buf : NdArray α) (old : Value α (a :: ty))
    (he : ensure src = some buf) (hn : buf.ndim = array_depth (a :: ty))
    (hf : fits (a :: ty) buf.shape = true) (hd : buf.data.length = buf.shape.prod) :
    ∃ dest, load true (a :: ty) ensure src old = .returned true dest ∧
      has_shape (a :: ty) buf.shape dest = true ∧
      ∀ idx, in_range buf.shape idx →
        row_major buf.shape idx < buf.data.length ∧
        coeff_at (a :: ty) dest idx = buf.data[row_major buf.shape idx]? := by
  rw [load_accepts true (a :: ty) ensure src old buf he hn]
  have hw := has_shape_resize (a :: ty) _ old hf
  have hw' := read_buffer_has_shape true buf.data (a :: ty) _ 0 _ hw
  have hcur := (read_buffer_arith buf.data a ty 0 (resize (a :: ty) buf.shape old)).1
  have hfl := (read_buffer_arith buf.data a ty 0 (resize (a :: ty) buf.shape old)).2
  rw [length_flatten_of_has_shape _ _ _ hw, ← hd] at hcur
  rw [length_flatten_of_has_shape _ _ _ hw, ← hd, segment_zero_length] at hfl
  refine ⟨_, if_pos (by rw [hcur]; omega), hw', fun idx hi => ⟨?_, ?_⟩⟩
  · rw [hd]; exact row_major_lt _ _ hi
  · rw [coeff_at_eq_flatten _ _ idx _ hw' hi, hfl]

/-- C4 (amended), at a 2 x 3 buffer loaded into a target whose inner level is static
of length 3, read at the multi-index (1, 2). -/
theorem load_postcondition_witness :
    ∃ dest, load true [Axis.dynamic, Axis.static 3] some
        (NdArray.mk [2, 3] [12, 4] [(10 : Int), 20, 30, 40, 50, 60]) empty_rows =
          .returned true dest ∧
      coeff_at [Axis.dynamic, Axis.static 3] dest [1, 2] = some 60 :=
  match load_postcondition Axis.dynamic [Axis.static 3] some
      (NdArray.mk [2, 3] [12, 4] [(10 : Int), 20, 30, 40, 50, 60])
      (NdArray.mk [2, 3] [12, 4] [(10 : Int), 20, 30, 40, 50, 60]) empty_rows rfl rfl
      (by decide) (by decide) with
  | ⟨dest, h1, _, h3⟩ =>
    ⟨dest, h1, ((h3 [1, 2]
      (List.Forall₂.cons (by decide) (List.Forall₂.cons (by decide) List.Forall₂.nil))).2).trans
      (by decide)⟩

/-- C5. For a shape `[s0, ..., sk]` (`k >= 0`) and a scalar size `e`, the stride
sequence computed by `cast` has the length of the shape, `stride[k] = e`, and
`stride[i] = shape[i + 1] * stride[i + 1]` for every `i < k`. The shape is one `cast`
can meet: its number of axes fits an `int`, and `e` times the extents after any axis
(the byte size of one element of that level) is below `2^64`; both hold for the shape
of every value whose data fits a 64-bit address space (`stride_bound_of_value`). -/
theorem stride_law (e : Nat) (shp : List Nat) (h0 : shp ≠ []) (hd : shp.length < 2 ^ 31)
    (hfit : ∀ i, i < shp.length → e * (shp.drop (i + 1)).prod < 2 ^ 64) :
    ∃ st, cast_stride e shp = some st ∧ st.length = shp.length ∧
      st.getD (shp.length - 1) 0 = e ∧
      ∀ i, i + 1 < shp.length → st.getD i 0 = shp.getD (i + 1) 0 * st.getD (i + 1) 0 := by
  obtain ⟨st, h1, h2, h3, h4⟩ := cast_stride_spec e shp h0 hd
  refine ⟨st, h1, h2, h3, fun i hi => ?_⟩
  have hnext := getD_closed_form e shp st h2 h3 h4 hfit (shp.length - 1 - (i + 1)) (i + 1)
    (by omega)
  have hd' : shp.drop (i + 1) = shp.getD (i + 1) 0 :: shp.drop (i + 1 + 1) := by
    rw [List.getD_eq_getElem _ _ (by omega)]
    exact List.drop_eq_getElem_cons (by omega)
  have hf := hfit i (by omega)
  rw [hd', List.prod_cons] at hf
  rw [h4 i hi, hnext]
  have : shp.getD (i + 1) 0 * (e * (shp.drop (i + 1 + 1)).prod) =
      e * (shp.getD (i + 1) 0 * (shp.drop (i + 1 + 1)).prod) := by ring
  rw [this, Nat.mod_eq_of_lt hf]

/-- C5, at the shape `[2, 3, 4, 5]` with 8-byte scalars: strides `[480, 160, 40, 8]`. -/
theorem stride_law_witness :
    cast_stride 8 [2, 3, 4, 5] = some [480, 160, 40, 8] ∧
      ∃ st, cast_stride 8 [2, 3, 4, 5] = some st ∧ st.length = ([2, 3, 4, 5] : List Nat).length ∧
        st.getD (([2, 3, 4, 5] : List Nat).length - 1) 0 = 8 ∧
        ∀ i, i + 1 < ([2, 3, 4, 5] : List Nat).length →
          st.getD i 0 = ([2, 3, 4, 5] : List Nat).getD (i + 1) 0 * st.getD (i + 1) 0 :=
  ⟨by decide,
    stride_law 8 [2, 3, 4, 5] (by decide) (by decide)
      (fun i hi => by
        have hi' : i < 4 := hi
        interval_cases i <;> decide)⟩

/-- C6, as stated, fails for a non-arithmetic scalar type: `cast` of a depth-1 value
of two composite scalars stores nothing, so the buffer it returns keeps its initial
content and does not hold the value's scalar at the offset of index 0. -/
theorem cast_layout_not_arithmetic :
    ragged [Axis.static 2] pairs_2 = false ∧
      (cast false 16 [Axis.static 2] pairs_2).stores = [] ∧
      ¬ ∃ buf, (cast false 16 [Axis.static 2] pairs_2).result = .ok buf ∧
        buf.data[byte_offset buf.strides [0] / 16]? = coeff_at [Axis.static 2] pairs_2 [0] := by
  have hrun := cast_not_arith_run 16 [Axis.static 2] pairs_2 [16] (by decide) (by decide)
  refine ⟨by decide, by rw [hrun], ?_⟩
  rintro ⟨buf, h1, h2⟩
  rw [hrun] at h1
  injection h1 with h1
  subst h1
  revert h2
  decide

/-- C6 (amended). For an arithmetic scalar type of positive size `e`, a type of fewer
than `2^31` levels, and a non-ragged value `v` whose buffer takes fewer than `2^64`
bytes: the strides reported by `cast` are the row-major ones, and for every
multi-index below the shape the scalar of `v` there is the element of the returned
buffer at byte offset `i0 * stride[0] + ... + ik * stride[k]`, i.e. at flat index
offset / `e`. -/
theorem cast_layout {α : Type} [Inhabited α] (e : Nat) (a : Axis) (ty : List Axis)
    (v : Value α (a :: ty)) (idx : List Nat) (hr : ragged (a :: ty) v = false) (he : 0 < e)
    (hfit : e * (shape (a :: ty) v).prod < 2 ^ 64) (hdepth : array_depth (a :: ty) < 2 ^ 31)
    (hi : in_range (shape (a :: ty) v) idx) :
    ∃ buf, (cast true e (a :: ty) v).result = .ok buf ∧
      byte_offset buf.strides idx = e * row_major buf.shape idx ∧
      ∃ x, coeff_at (a :: ty) v idx = some x ∧
        buf.data[byte_offset buf.strides idx / e]? = some x := by
  have hs := has_shape_of_not_ragged _ v hr
  have hlen := length_flatten_of_has_shape _ _ v hs
  have hD : (shape (a :: ty) v).length < 2 ^ 31 := by rw [shape_length]; exact hdepth
  obtain ⟨st, h1, h2, h3, h4⟩ := cast_stride_spec e _ (shape_ne_nil a ty v) hD
  have hst : st = exact_strides e (shape (a :: ty) v) :=
    eq_exact_strides e _ st h2 h3 h4 (fun i _ =>
      lt_of_le_of_lt (Nat.mul_le_mul_left e (prod_drop_le _ (i + 1) (pos_of_in_range _ _ hi)))
        hfit)
  have hoff := byte_offset_exact_strides e _ idx hi
  have hlt : row_major (shape (a :: ty) v) idx < (flatten (a :: ty) v).length := by
    rw [hlen]; exact row_major_lt _ _ hi
  obtain ⟨x, hx⟩ : ∃ x, (flatten (a :: ty) v)[row_major (shape (a :: ty) v) idx]? = some x :=
    ⟨_, List.getElem?_eq_getElem hlt⟩
  refine ⟨⟨shape (a :: ty) v, st, flatten (a :: ty) v⟩, ?_, ?_, x, ?_, ?_⟩
  · rw [cast_arith_run e a ty v st hr h1]
  · rw [hst]; exact hoff
  · rw [coeff_at_eq_flatten _ _ idx v hs hi, hx]
  · show (flatten (a :: ty) v)[byte_offset st idx / e]? = _
    rw [hst, hoff, Nat.mul_div_cancel_left _ he, hx]

/-- C6 (amended), at two rows of three 4-byte integers and the multi-index (1, 2):
strides `[12, 4]`, byte offset 20, flat index 5. -/
theorem cast_layout_witness :
    ∃ buf, (cast true 4 [Axis.dynamic, Axis.static 3] rows_2x3).result = .ok buf ∧
      byte_offset buf.strides [1, 2] = 4 * row_major buf.shape [1, 2] ∧
      ∃ x, coeff_at [Axis.dynamic, Axis.static 3] rows_2x3 [1, 2] = some x ∧
        buf.data[byte_offset buf.strides [1, 2] / 4]? = some x :=
  cast_layout 4 Axis.dynamic [Axis.static 3] rows_2x3 [1, 2] (by decide) (by decide)
    (by decide) (by decide)
    (List.Forall₂.cons (by decide) (List.Forall₂.cons (by decide) List.Forall₂.nil))

/-- C11, at the failing input: a target with one static level of length 3 and a
buffer of shape `[2]`. `load` accepts the buffer (its dimensionality is the depth, 1),
the static level keeps its 3 elements, and `read_buffer` advances the cursor to 3
although the buffer holds 2 elements: the flat index 2 it reads is not below the
element count, and the call ends in that out-of-bounds read. -/
theorem load_static_over_read :
    (NdArray.mk [2] [4] [(1 : Int), 2]).ndim = array_depth [Axis.static 3] ∧
      (NdArray.mk [2] [4] [(1 : Int), 2]).shape.prod = 2 ∧
      (read_buffer true [(1 : Int), 2] [Axis.static 3] 0
        (resize [Axis.static 3] [2] triple_0)).1 = 3 ∧
      ¬ ((read_buffer true [(1 : Int), 2] [Axis.static 3] 0
        (resize [Axis.static 3] [2] triple_0)).1 ≤ (NdArray.mk [2] [4] [(1 : Int), 2]).shape.prod) ∧
      load true [Axis.static 3] some (NdArray.mk [2] [4] [(1 : Int), 2]) triple_0 =
        .out_of_bounds :=
  ⟨rfl, by decide, by decide, by decide, rfl⟩

/-- C12. The shape part of the caster's name is the list of the type's levels,
outermost first, one entry per level (a static level of length `N` as the decimal
numeral of `N`, a dynamic level as the letter n), joined by a comma and a blank with
no separator before the first or after the last entry; the name is the text
`numpy.ndarray[dtype=<scalar name>, shape=(<shape part>)]` handed to pybind11's
`type_descr`. -/
theorem name_shape_part (type_descr : String → String) (scalar_name : String)
    (ty : List Axis) :
    array_shape_descr ty = shape_part ty ∧
      (ty.map axis_entry).length = array_depth ty ∧
      name type_descr scalar_name ty =
        type_descr ("numpy.ndarray[dtype=" ++ scalar_name ++ ", shape=(" ++ shape_part ty ++ ")]") ∧
      array_shape_descr [Axis.static 3, Axis.dynamic, Axis.static 4] = "3, n, 4" := by
  refine ⟨array_shape_descr_eq ty, by simp [array_depth], ?_, by decide⟩
  unfold name
  rw [array_shape_descr_eq]

/-- C13. Whenever `load` returns false the member `value` is what it was before the
call. -/
theorem load_failure_keeps_value {α H : Type} [Inhabited α] (arith : Bool) (ty : List Axis)
    (ensure : H → Option (NdArray α)) (src : H) (value after : Value α ty)
    (h : load arith ty ensure src value = .returned false after) :
    after = value := by
  unfold load at h
  cases he : ensure src with
  | none =>
    rw [he] at h
    cases h
    rfl
  | some buf =>
    rw [he] at h
    dsimp only at h
    by_cases hn : array_depth ty = buf.ndim
    · rw [if_neg (by simpa using hn)] at h
      split at h <;> cases h
    · rw [if_pos hn] at h
      cases h
      rfl

/-- C13, at a buffer of shape 2 x 2 x 2 offered to a depth-2 target holding
`ragged_332`, and at an object that is no buffer. -/
theorem load_failure_keeps_value_witness :
    (load true [Axis.dynamic, Axis.dynamic] some
        (NdArray.mk [2, 2, 2] [16, 8, 4] [(1 : Int), 2, 3, 4, 5, 6, 7, 8]) ragged_332 =
          .returned false ragged_332 ∧
      ∀ after, load true [Axis.dynamic, Axis.dynamic] some
        (NdArray.mk [2, 2, 2] [16, 8, 4] [(1 : Int), 2, 3, 4, 5, 6, 7, 8]) ragged_332 =
          .returned false after → after = ragged_332) ∧
      (load true [Axis.dynamic, Axis.dynamic] (fun _ : Unit => (none : Option (NdArray Int))) ()
        ragged_332 = .returned false ragged_332 ∧
      ∀ after, load true [Axis.dynamic, Axis.dynamic]
        (fun _ : Unit => (none : Option (NdArray Int))) () ragged_332 =
          .returned false after → after = ragged_332) :=
  ⟨⟨rfl, fun after h =>
      load_failure_keeps_value true [Axis.dynamic, Axis.dynamic] some
        (NdArray.mk [2, 2, 2] [16, 8, 4] [(1 : Int), 2, 3, 4, 5, 6, 7, 8]) ragged_332 after h⟩,
    ⟨rfl, fun after h =>
      load_failure_keeps_value true [Axis.dynamic, Axis.dynamic]
        (fun _ : Unit => (none : Option (NdArray Int))) () ragged_332 after h⟩⟩

/-- C14, as stated, fails for a non-arithmetic scalar type: for the depth-1 value of
two composite 16-byte scalars the shape is `[2]`, the stride `[16]` and
`shape[0] * stride[0] = 32` is 16 times the element count, but `write_buffer` stores
no element, so the data the writer emits is not 32 bytes. -/
theorem stride_closed_form_not_arithmetic :
    ragged [Axis.static 2] pairs_2 = false ∧
      shape [Axis.static 2] pairs_2 = [2] ∧
      cast_stride 16 [2] = some [16] ∧
      ([2] : List Nat).getD 0 0 * ([16] : List Nat).getD 0 0 = 16 * ([2] : List Nat).prod ∧
      (write_buffer false [Axis.static 2] 0 pairs_2).2.length = 0 ∧
      ¬ (16 * (write_buffer false [Axis.static 2] 0 pairs_2).2.length =
          ([2] : List Nat).getD 0 0 * ([16] : List Nat).getD 0 0) := by
  decide

/-- C14 (amended). For a shape `[s0, ..., sk]` that `cast` can meet (at least one and
fewer than `2^31` axes, and `e` times the product of the extents after axis `i`
below `2^64` for every `i`, as for the shape of every value whose data fits a 64-bit
address space, see `stride_bound_of_value`): the computed `stride[i]` is `e` times
the product of `shape[j]` over `j > i`, `shape[0] * stride[0]` is `e` times the total
element count, and that is `e` times the number of elements `write_buffer` stores for
a non-ragged value of that shape with arithmetic scalars. -/
theorem stride_closed_form (e : Nat) (shp : List Nat) (h0 : shp ≠ [])
    (hd : shp.length < 2 ^ 31)
    (hfit : ∀ i, i < shp.length → e * (shp.drop (i + 1)).prod < 2 ^ 64) :
    ∃ st, cast_stride e shp = some st ∧
      (∀ i, i < shp.length → st.getD i 0 = e * (shp.drop (i + 1)).prod) ∧
      shp.getD 0 0 * st.getD 0 0 = e * shp.prod ∧
      ∀ (α : Type) (a : Axis) (ty : List Axis) (v : Value α (a :: ty)),
        ragged (a :: ty) v = false → shape (a :: ty) v = shp →
        e * (write_buffer true (a :: ty) 0 v).2.length = shp.getD 0 0 * st.getD 0 0 := by
  obtain ⟨st, h1, h2, h3, h4⟩ := cast_stride_spec e shp h0 hd
  have hcl : ∀ i, i < shp.length → st.getD i 0 = e * (shp.drop (i + 1)).prod := fun i hi =>
    getD_closed_form e shp st h2 h3 h4 hfit (shp.length - 1 - i) i (by omega)
  have hpos : 0 < shp.length := List.length_pos.mpr h0
  have htot : shp.getD 0 0 * st.getD 0 0 = e * shp.prod := by
    rw [hcl 0 hpos]
    cases shp with
    | nil => exact absurd rfl h0
    | cons s0 tl =>
      simp only [List.getD_cons_zero, List.drop_succ_cons, List.drop_zero, List.prod_cons]
      ring
  refine ⟨st, h1, hcl, htot, fun α a ty v hr hs => ?_⟩
  rw [htot, write_buffer_arith, List.enumFrom_length,
    length_flatten_of_has_shape _ _ v (has_shape_of_not_ragged _ v hr), hs]

/-- C14 (amended), at the shape `[2, 3, 4, 5]` with 8-byte scalars: strides
`[480, 160, 40, 8]`, and `2 * 480` is 8 times the 120 elements. -/
theorem stride_closed_form_witness :
    ∃ st, cast_stride 8 [2, 3, 4, 5] = some st ∧
      (∀ i, i < ([2, 3, 4, 5] : List Nat).length →
        st.getD i 0 = 8 * (([2, 3, 4, 5] : List Nat).drop (i + 1)).prod) ∧
      ([2, 3, 4, 5] : List Nat).getD 0 0 * st.getD 0 0 = 8 * ([2, 3, 4, 5] : List Nat).prod ∧
      ∀ (α : Type) (a : Axis) (ty : List Axis) (v : Value α (a :: ty)),
        ragged (a :: ty) v = false → shape (a :: ty) v = [2, 3, 4, 5] →
        8 * (write_buffer true (a :: ty) 0 v).2.length =
          ([2, 3, 4, 5] : List Nat).getD 0 0 * st.getD 0 0 :=
  stride_closed_form 8 [2, 3, 4, 5] (by decide) (by decide)
    (fun i hi => by
      have hi' : i < 4 := hi
      interval_cases i <;> decide)

/-- C15, as stated for an arbitrary value, fails for a non-arithmetic scalar type:
for a depth-1 value of two composite scalars `write_buffer` stores nothing, not one
element per scalar leaf. -/
theorem write_count_not_arithmetic :
    leaf_count [Axis.static 2] pairs_2 = 2 ∧
      (write_buffer false [Axis.static 2] 0 pairs_2).2.length = 0 := by
  decide

/-- C15 (amended). For an arithmetic scalar type `write_buffer` stores one element per
scalar leaf of the value, ragged or not: as many as the sum of the lengths of its
innermost arrays. For the ragged depth-2 value with sub-array lengths 2, 3 and 3 that
is 8 elements, more than the 6 of the shape `[3, 2]` taken from first children, and
the stores at flat positions 6 and 7 lie outside a buffer of that shape: only the
raggedness test of `cast` keeps them from happening. -/
theorem write_count_needs_guard {α : Type} (a : Axis) (ty : List Axis) (c : Nat)
    (v : Value α (a :: ty)) :
    (write_buffer true (a :: ty) c v).2.length = leaf_count (a :: ty) v ∧
      (ragged [Axis.dynamic, Axis.dynamic] ragged_233 = true ∧
        shape [Axis.dynamic, Axis.dynamic] ragged_233 = [3, 2] ∧
        leaf_count [Axis.dynamic, Axis.dynamic] ragged_233 = 8 ∧
        (shape [Axis.dynamic, Axis.dynamic] ragged_233).prod <
          (write_buffer true [Axis.dynamic, Axis.dynamic] 0 ragged_233).2.length ∧
        (write_buffer true [Axis.dynamic, Axis.dynamic] 0 ragged_233).2.map Prod.fst =
          [0, 1, 2, 3, 4, 5, 6, 7] ∧
        ((write_buffer true [Axis.dynamic, Axis.dynamic] 0 ragged_233).2.filter
            (fun s => decide ((shape [Axis.dynamic, Axis.dynamic] ragged_233).prod ≤ s.1))).map
          Prod.fst = [6, 7]) := by
  refine ⟨?_, by decide⟩
  rw [write_buffer_arith, List.enumFrom_length, length_flatten_eq_leaf_count]

/-- C16. For a shape of `D >= 1` axes every index the stride computation uses on
`shape` and `stride` is below `D`, so the computation never leaves the arrays and
yields `D` strides. For `D = 1` the loop start is `-1`, whether the conversion to
`int` is applied before the subtraction (as in the source) or after a subtraction in
64-bit unsigned arithmetic; the loop body never runs, the only index used is 0 and
the result is `[e]`. -/
theorem stride_index_safe (e : Nat) (shp : List Nat) (h : 1 ≤ shp.length) :
    (∀ j ∈ stride_indices shp.length, j < shp.length) ∧
      (∃ st, cast_stride e shp = some st ∧ st.length = shp.length) ∧
      (shp.length = 1 →
        toInt32 shp.length - 2 = -1 ∧
        toInt32 ((shp.length + (2 ^ 64 - 2)) % 2 ^ 64) = -1 ∧
        (toInt32 shp.length - 2 + 1).toNat = 0 ∧
        stride_indices shp.length = [0] ∧
        cast_stride e shp = some [e]) := by
  refine ⟨lt_of_mem_stride_indices shp.length h, cast_stride_length e shp h, fun h1 => ?_⟩
  rw [h1]
  refine ⟨by decide, by decide, by decide, by decide, ?_⟩
  obtain ⟨st, e1, e2, e3, _⟩ := cast_stride_spec e shp (List.length_pos.mp (by omega))
    (by rw [h1]; norm_num)
  rw [e1]
  rw [h1] at e2 e3
  match st, e2, e3 with
  | [x], _, e3 =>
    simp only [Nat.sub_self, List.getD_cons_zero] at e3
    rw [e3]

/-- C16, at the shape `[5]` with 8-byte scalars. -/
theorem stride_index_safe_witness :
    (∀ j ∈ stride_indices ([5] : List Nat).length, j < ([5] : List Nat).length) ∧
      (∃ st, cast_stride 8 [5] = some st ∧ st.length = ([5] : List Nat).length) ∧
      (([5] : List Nat).length = 1 →
        toInt32 ([5] : List Nat).length - 2 = -1 ∧
        toInt32 ((([5] : List Nat).length + (2 ^ 64 - 2)) % 2 ^ 64) = -1 ∧
        (toInt32 ([5] : List Nat).length - 2 + 1).toNat = 0 ∧
        stride_indices ([5] : List Nat).length = [0] ∧
        cast_stride 8 [5] = some [8]) :=
  stride_index_safe 8 [5] (by decide)

end Main

end Enoki
